import Mathlib

/-!
Shallow embedding of the pcd-rs record serialization engine and sequential
writer (src/src/record.rs, src/src/seq_writer.rs, src/src/error.rs), together
with theorems settling the specification claims about it.

Machine values are modelled as follows: unsigned integers are `Nat` with the
range invariant carried separately, signed integers are `Int` with their range
invariant, and `f32`/`f64` values are carried as their IEEE-754 bit patterns
(`Nat` below `2 ^ 32` / `2 ^ 64`), which is exactly what the binary codec
moves around.  Byte sinks and sources are `List Nat` of byte values; text
sinks are `String`.  Fallible Rust code returns `Except`/pairs, and Rust
panics are modelled by dedicated error constructors marked `panic...`.
-/

namespace Pcd

/-- The eight supported numeric element kinds (`ValueKind` in metas; the shape
is fixed by its uses in src/src/record.rs and src/src/error.rs). -/
inductive ValueKind where
  | i8 | i16 | i32 | u8 | u16 | u32 | f32 | f64
  deriving DecidableEq, Repr

/-- One field descriptor of a schema (`FieldDef` in metas: a name, a kind and
an element count, as consumed by `DynRecord` in src/src/record.rs). -/
structure FieldDef where
  name : String
  kind : ValueKind
  count : Nat
  deriving DecidableEq, Repr

/-- A schema is an ordered list of field descriptors. -/
abbrev Schema := List FieldDef

/-- An enum representation of untyped data fields (`Field` in
src/src/record.rs).  Signed payloads are `Int`, unsigned payloads are `Nat`,
float payloads are IEEE bit patterns as `Nat`. -/
inductive Field where
  | I8 (values : List Int)
  | I16 (values : List Int)
  | I32 (values : List Int)
  | U8 (values : List Nat)
  | U16 (values : List Nat)
  | U32 (values : List Nat)
  | F32 (values : List Nat)
  | F64 (values : List Nat)
  deriving DecidableEq, Repr

/-- `Field::kind` from src/src/record.rs. -/
def Field.kind : Field → ValueKind
  | .I8 _ => .i8
  | .I16 _ => .i16
  | .I32 _ => .i32
  | .U8 _ => .u8
  | .U16 _ => .u16
  | .U32 _ => .u32
  | .F32 _ => .f32
  | .F64 _ => .f64

/-- `Field::count` from src/src/record.rs. -/
def Field.count : Field → Nat
  | .I8 values => values.length
  | .I16 values => values.length
  | .I32 values => values.length
  | .U8 values => values.length
  | .U16 values => values.length
  | .U32 values => values.length
  | .F32 values => values.length
  | .F64 values => values.length

/-- An untyped point (`DynRecord` in src/src/record.rs). -/
structure DynRecord where
  fields : List Field
  deriving DecidableEq, Repr

/-- The structured error taxonomy of src/src/error.rs (`PCDError`). -/
inductive PCDError where
  | parseError (line : Nat) (desc : String)
  | schemaMismatchError (expect : List (Option String × ValueKind × Option Nat))
      (found : List (String × ValueKind × Nat))
  | fieldSizeMismatchError (field_name : String) (expect found : Nat)
  | textTokenMismatchError (expect found : Nat)
  | invalidArgumentError (desc : String)
  deriving DecidableEq, Repr

/-- The error value travelling through the fallible functions in the source:
either a structured `PCDError`, a bare message (`bail!` / `anyhow!`), an
underlying I/O failure, or a wrapped numeric-parse failure.  Constructors
whose name starts with `panic` model Rust panics at the corresponding
source sites rather than recoverable errors. -/
inductive AnyError where
  | io
  | pcd (e : PCDError)
  | message (s : String)
  | parseFailure (desc : String)
  | panicUnwrap
  | panicUnreachable
  | panicSliceRange
  | panicIncompletePoint
  | panicIndexRange
  deriving DecidableEq, Repr

/-- Whether an error is the structured SchemaMismatch kind of the taxonomy. -/
def AnyError.isSchemaMismatch : AnyError → Bool
  | .pcd (.schemaMismatchError _ _) => true
  | _ => false

/-- Whether an error is the structured InvalidArgument kind of the taxonomy. -/
def AnyError.isInvalidArgument : AnyError → Bool
  | .pcd (.invalidArgumentError _) => true
  | _ => false

/-- The `matches!` test of `DynRecord::is_schema_consistent` in
src/src/record.rs: the field's variant tag agrees with the descriptor kind. -/
def fieldVariantMatches : Field → ValueKind → Bool
  | .I8 _, .i8 => true
  | .I16 _, .i16 => true
  | .I32 _, .i32 => true
  | .U8 _, .u8 => true
  | .U16 _, .u16 => true
  | .U32 _, .u32 => true
  | .F32 _, .f32 => true
  | .F64 _, .f64 => true
  | _, _ => false

/-- `DynRecord::is_schema_consistent` from src/src/record.rs: equal length,
and at each position, equal count and matching kind. -/
def DynRecord.is_schema_consistent (rec : DynRecord) (schema : Schema) : Bool :=
  if rec.fields.length ≠ schema.length then false
  else
    (rec.fields.zip schema).all fun (field, schema_field) =>
      if field.count ≠ schema_field.count then false
      else fieldVariantMatches field schema_field.kind

/-- Little-endian byte image of a `w`-byte unsigned value (the
`byteorder::LittleEndian` writes used by `DynRecord::write_chunk`). -/
def leBytes : Nat → Nat → List Nat
  | 0, _ => []
  | w + 1, n => n % 256 :: leBytes w (n / 256)

/-- The `w`-byte two's-complement bit pattern of a signed value (what
`write_i8`/`write_i16`/`write_i32` put on the wire). -/
def intPat (w : Nat) (v : Int) : Nat := (v % ((2 : Int) ^ (8 * w))).toNat

/-- The byte stream one `Field` contributes in `DynRecord::write_chunk`
(src/src/record.rs): every element in order, little-endian, no padding. -/
def Field.encodeChunk : Field → List Nat
  | .I8 values => values.flatMap fun v => leBytes 1 (intPat 1 v)
  | .I16 values => values.flatMap fun v => leBytes 2 (intPat 2 v)
  | .I32 values => values.flatMap fun v => leBytes 4 (intPat 4 v)
  | .U8 values => values.flatMap fun v => leBytes 1 v
  | .U16 values => values.flatMap fun v => leBytes 2 v
  | .U32 values => values.flatMap fun v => leBytes 4 v
  | .F32 values => values.flatMap fun v => leBytes 4 v
  | .F64 values => values.flatMap fun v => leBytes 8 v

/-- `DynRecord::write_chunk` (src/src/record.rs): on schema inconsistency it
bails with the literal message and the sink is untouched; otherwise it appends
every field's little-endian bytes to the sink.  Returned as (error?, sink
after the call). -/
def DynRecord.write_chunk (rec : DynRecord) (spec : Schema) (sink : List Nat) :
    Option AnyError × List Nat :=
  if ¬ rec.is_schema_consistent spec then
    (some (.message "The content of record does not match the writer schema."), sink)
  else
    (none, sink ++ rec.fields.flatMap Field.encodeChunk)

/-- The decimal tokens one `Field` contributes in `DynRecord::write_line`.
Integer display is exact decimal; float display is abstracted by the
caller-supplied rendering functions (Rust's `f32`/`f64` `Display`). -/
def Field.lineTokens (f32Show f64Show : Nat → String) : Field → List String
  | .I8 values => values.map toString
  | .I16 values => values.map toString
  | .I32 values => values.map toString
  | .U8 values => values.map toString
  | .U16 values => values.map toString
  | .U32 values => values.map toString
  | .F32 values => values.map f32Show
  | .F64 values => values.map f64Show

/-- `DynRecord::write_line` (src/src/record.rs): on schema inconsistency it
bails with the literal message and the sink is untouched; otherwise it appends
one line of space-joined tokens with a trailing newline. -/
def DynRecord.write_line (rec : DynRecord) (spec : Schema)
    (f32Show f64Show : Nat → String) (sink : String) : Option AnyError × String :=
  if ¬ rec.is_schema_consistent spec then
    (some (.message "The content of record does not match the writer schema."), sink)
  else
    let tokens := rec.fields.flatMap (Field.lineTokens f32Show f64Show)
    (none, sink ++ String.intercalate " " tokens ++ "\n")

/-- Reading `w` little-endian bytes and assembling the unsigned value
(`read_u8`/`read_u16`/... in `DynRecord::read_chunk`); truncated input is the
underlying I/O error. -/
def readLE : Nat → List Nat → Except AnyError (Nat × List Nat)
  | 0, bs => .ok (0, bs)
  | _ + 1, [] => .error .io
  | w + 1, b :: bs =>
    match readLE w bs with
    | .error e => .error e
    | .ok (n, rest) => .ok (b + 256 * n, rest)

/-- Two's-complement reading of a `w`-byte pattern as a signed value (what
`read_i8`/`read_i16`/`read_i32` return for a given byte pattern). -/
def decodeSigned (w : Nat) (n : Nat) : Int :=
  if n < 2 ^ (8 * w - 1) then (n : Int) else (n : Int) - 2 ^ (8 * w)

/-- Read `count` unsigned `w`-byte little-endian scalars. -/
def readScalarsU (w : Nat) : Nat → List Nat → Except AnyError (List Nat × List Nat)
  | 0, bs => .ok ([], bs)
  | c + 1, bs =>
    match readLE w bs with
    | .error e => .error e
    | .ok (v, bs1) =>
      match readScalarsU w c bs1 with
      | .error e => .error e
      | .ok (vs, bs2) => .ok (v :: vs, bs2)

/-- Read `count` signed `w`-byte little-endian scalars. -/
def readScalarsI (w : Nat) (c : Nat) (bs : List Nat) :
    Except AnyError (List Int × List Nat) :=
  match readScalarsU w c bs with
  | .error e => .error e
  | .ok (vs, rest) => .ok (vs.map (decodeSigned w), rest)

/-- Wrap the scalar list produced by a read into the right `Field` variant,
letting errors through (the `Field::XX(values)` step of each arm). -/
def intoField (g : List α → Field) :
    Except AnyError (List α × β) → Except AnyError (Field × β)
  | .error e => .error e
  | .ok (vs, rest) => .ok (g vs, rest)

/-- One arm of the `match kind` in `DynRecord::read_chunk`
(src/src/record.rs): read `count` little-endian scalars of the descriptor's
kind and collect them into one `Field`. -/
def readFieldChunk (def_ : FieldDef) (bs : List Nat) :
    Except AnyError (Field × List Nat) :=
  match def_.kind with
  | .i8 => intoField Field.I8 (readScalarsI 1 def_.count bs)
  | .i16 => intoField Field.I16 (readScalarsI 2 def_.count bs)
  | .i32 => intoField Field.I32 (readScalarsI 4 def_.count bs)
  | .u8 => intoField Field.U8 (readScalarsU 1 def_.count bs)
  | .u16 => intoField Field.U16 (readScalarsU 2 def_.count bs)
  | .u32 => intoField Field.U32 (readScalarsU 4 def_.count bs)
  | .f32 => intoField Field.F32 (readScalarsU 4 def_.count bs)
  | .f64 => intoField Field.F64 (readScalarsU 8 def_.count bs)

/-- The field-by-field loop of `DynRecord::read_chunk`. -/
def readFieldsChunk : Schema → List Nat → Except AnyError (List Field × List Nat)
  | [], bs => .ok ([], bs)
  | d :: ds, bs =>
    match readFieldChunk d bs with
    | .error e => .error e
    | .ok (f, bs1) =>
      match readFieldsChunk ds bs1 with
      | .error e => .error e
      | .ok (fs, bs2) => .ok (f :: fs, bs2)

/-- `DynRecord::read_chunk` (src/src/record.rs): for each descriptor in
schema order, read exactly `count` little-endian scalars of its kind. -/
def DynRecord.read_chunk (field_defs : Schema) (bs : List Nat) :
    Except AnyError (DynRecord × List Nat) :=
  match readFieldsChunk field_defs bs with
  | .error e => .error e
  | .ok (fields, rest) => .ok (⟨fields⟩, rest)

-- Range invariants carried by the Rust integer and float types.

/-- The range invariant each `Field` payload enjoys by virtue of its Rust
element type (`i8`, …, `u32` ranges; float bit patterns of 32/64 bits). -/
def Field.Wf : Field → Prop
  | .I8 values => ∀ v ∈ values, -(2 ^ 7) ≤ v ∧ v < 2 ^ 7
  | .I16 values => ∀ v ∈ values, -(2 ^ 15) ≤ v ∧ v < 2 ^ 15
  | .I32 values => ∀ v ∈ values, -(2 ^ 31) ≤ v ∧ v < 2 ^ 31
  | .U8 values => ∀ v ∈ values, v < 2 ^ 8
  | .U16 values => ∀ v ∈ values, v < 2 ^ 16
  | .U32 values => ∀ v ∈ values, v < 2 ^ 32
  | .F32 values => ∀ v ∈ values, v < 2 ^ 32
  | .F64 values => ∀ v ∈ values, v < 2 ^ 64

instance (f : Field) : Decidable f.Wf := by
  cases f <;> simp only [Field.Wf] <;> infer_instance

/-- A record is well formed when every field is. -/
def DynRecord.Wf (rec : DynRecord) : Prop := ∀ f ∈ rec.fields, f.Wf

instance (rec : DynRecord) : Decidable rec.Wf := by
  unfold DynRecord.Wf; infer_instance

-- Rust `==` (PartialEq) on records, including IEEE-754 float equality.

/-- NaN test on an f32 bit pattern: exponent all ones, mantissa nonzero. -/
def isNaN32 (n : Nat) : Bool := (n / 2 ^ 23) % 2 ^ 8 = 255 ∧ n % 2 ^ 23 ≠ 0

/-- NaN test on an f64 bit pattern: exponent all ones, mantissa nonzero. -/
def isNaN64 (n : Nat) : Bool := (n / 2 ^ 52) % 2 ^ 11 = 2047 ∧ n % 2 ^ 52 ≠ 0

/-- Zero test on an f32 bit pattern (`+0.0` or `-0.0`). -/
def isZero32 (n : Nat) : Bool := n = 0 ∨ n = 2 ^ 31

/-- Zero test on an f64 bit pattern (`+0.0` or `-0.0`). -/
def isZero64 (n : Nat) : Bool := n = 0 ∨ n = 2 ^ 63

/-- Rust `f32 == f32` on bit patterns: false whenever either side is NaN,
and `+0.0 == -0.0`; otherwise bit equality. -/
def f32Eq (a b : Nat) : Bool :=
  !isNaN32 a && !isNaN32 b && (a = b || (isZero32 a && isZero32 b))

/-- Rust `f64 == f64` on bit patterns. -/
def f64Eq (a b : Nat) : Bool :=
  !isNaN64 a && !isNaN64 b && (a = b || (isZero64 a && isZero64 b))

/-- Element-wise list equality under a given element comparison (Rust
`Vec<T> == Vec<T>`). -/
def listEqBy (eq : α → α → Bool) : List α → List α → Bool
  | [], [] => true
  | a :: as_, b :: bs => eq a b && listEqBy eq as_ bs
  | _, _ => false

/-- Rust `Field == Field` (the derived `PartialEq` of src/src/record.rs):
same variant and element-wise equality, with IEEE semantics on floats. -/
def fieldRustEq : Field → Field → Bool
  | .I8 a, .I8 b => listEqBy (fun x y => x = y) a b
  | .I16 a, .I16 b => listEqBy (fun x y => x = y) a b
  | .I32 a, .I32 b => listEqBy (fun x y => x = y) a b
  | .U8 a, .U8 b => listEqBy (fun x y => x = y) a b
  | .U16 a, .U16 b => listEqBy (fun x y => x = y) a b
  | .U32 a, .U32 b => listEqBy (fun x y => x = y) a b
  | .F32 a, .F32 b => listEqBy f32Eq a b
  | .F64 a, .F64 b => listEqBy f64Eq a b
  | _, _ => false

/-- Rust `DynRecord == DynRecord` (derived `PartialEq`). -/
def recordRustEq (r1 r2 : DynRecord) : Bool :=
  listEqBy fieldRustEq r1.fields r2.fields

/-- No NaN bit pattern among one field's float payload. -/
def Field.NoNaN : Field → Prop
  | .F32 values => ∀ v ∈ values, isNaN32 v = false
  | .F64 values => ∀ v ∈ values, isNaN64 v = false
  | _ => True

instance (f : Field) : Decidable f.NoNaN := by
  cases f <;> simp only [Field.NoNaN] <;> infer_instance

/-- No float payload of the record is a NaN bit pattern. -/
def DynRecord.NoNaN (rec : DynRecord) : Prop := ∀ f ∈ rec.fields, f.NoNaN

instance (rec : DynRecord) : Decidable rec.NoNaN := by
  unfold DynRecord.NoNaN; infer_instance

-- Text-line decoding (`DynRecord::read_line` in src/src/record.rs).

/-- Rust `char::is_ascii_whitespace`: space, tab, newline, carriage return,
form feed. -/
def isAsciiWhitespace (c : Char) : Bool :=
  c = ' ' ∨ c = '\t' ∨ c = '\n' ∨ c = '\r' ∨ c = '\x0c'

/-- Worker for `split_ascii_whitespace`, carrying the (reversed) token being
accumulated. -/
def splitAWAux : List Char → List Char → List (List Char)
  | [], acc => if acc.isEmpty then [] else [acc.reverse]
  | c :: cs, acc =>
    if isAsciiWhitespace c then
      if acc.isEmpty then splitAWAux cs [] else acc.reverse :: splitAWAux cs []
    else splitAWAux cs (c :: acc)

/-- Rust `str::split_ascii_whitespace` collected into a vector. -/
def splitAsciiWhitespace (cs : List Char) : List String :=
  (splitAWAux cs []).map fun t => String.mk t

/-- `BufRead::read_line`: consume characters up to and including the first
newline (or the rest of the input) and return (line, remaining input). -/
def takeOneLine : List Char → List Char × List Char
  | [] => ([], [])
  | c :: cs =>
    if c = '\n' then ([c], cs)
    else
      let (l, r) := takeOneLine cs
      (c :: l, r)

/-- The per-kind token parsing functions (`str::parse` at each element type)
that `DynRecord::read_line` invokes; failures carry a description, as the
wrapped `ParseIntError`/`ParseFloatError` do.  Signed results are `Int`,
unsigned are `Nat`, floats are bit patterns. -/
structure TokenReaders where
  ofI8 : String → Except String Int
  ofI16 : String → Except String Int
  ofI32 : String → Except String Int
  ofU8 : String → Except String Nat
  ofU16 : String → Except String Nat
  ofU32 : String → Except String Nat
  ofF32 : String → Except String Nat
  ofF64 : String → Except String Nat

/-- The `counter.map(|_| tokens_iter.next().unwrap().parse()?)` loop of one
arm of `DynRecord::read_line`: take `count` tokens off the iterator and parse
each; an exhausted iterator is the `unwrap` panic. -/
def parseTokens (p : String → Except String α) :
    Nat → List String → Except AnyError (List α × List String)
  | 0, toks => .ok ([], toks)
  | _ + 1, [] => .error .panicUnwrap
  | c + 1, t :: toks =>
    match p t with
    | .error e => .error (.parseFailure e)
    | .ok v =>
      match parseTokens p c toks with
      | .error e => .error e
      | .ok (vs, rest) => .ok (v :: vs, rest)

/-- One descriptor's arm of the token-consuming `match kind` in
`DynRecord::read_line`. -/
def readFieldLine (ps : TokenReaders) (def_ : FieldDef) (toks : List String) :
    Except AnyError (Field × List String) :=
  match def_.kind with
  | .i8 => intoField Field.I8 (parseTokens ps.ofI8 def_.count toks)
  | .i16 => intoField Field.I16 (parseTokens ps.ofI16 def_.count toks)
  | .i32 => intoField Field.I32 (parseTokens ps.ofI32 def_.count toks)
  | .u8 => intoField Field.U8 (parseTokens ps.ofU8 def_.count toks)
  | .u16 => intoField Field.U16 (parseTokens ps.ofU16 def_.count toks)
  | .u32 => intoField Field.U32 (parseTokens ps.ofU32 def_.count toks)
  | .f32 => intoField Field.F32 (parseTokens ps.ofF32 def_.count toks)
  | .f64 => intoField Field.F64 (parseTokens ps.ofF64 def_.count toks)

/-- The field-by-field token-consuming loop of `DynRecord::read_line`. -/
def readFieldsLine (ps : TokenReaders) : Schema → List String →
    Except AnyError (List Field × List String)
  | [], toks => .ok ([], toks)
  | d :: ds, toks =>
    match readFieldLine ps d toks with
    | .error e => .error e
    | .ok (f, toks1) =>
      match readFieldsLine ps ds toks1 with
      | .error e => .error e
      | .ok (fs, toks2) => .ok (f :: fs, toks2)

/-- `DynRecord::read_line` (src/src/record.rs): read exactly one line, split
it on ASCII whitespace, compare the token count to the schema's aggregate
count, then consume tokens in schema order parsing each by its descriptor's
kind. -/
def DynRecord.read_line (ps : TokenReaders) (field_defs : Schema)
    (input : List Char) : Except AnyError DynRecord :=
  let line := (takeOneLine input).1
  let tokens := splitAsciiWhitespace line
  let expect := (field_defs.map fun def_ => def_.count).sum
  if tokens.length ≠ expect then
    .error (.pcd (.textTokenMismatchError expect tokens.length))
  else
    match readFieldsLine ps field_defs tokens with
    | .error e => .error e
    | .ok (fields, _) => .ok ⟨fields⟩

-- Coordinate extraction (`DynRecord::xyz` in src/src/record.rs).

/-- The `FromPrimitive` conversions of the caller-chosen numeric type `T`:
`T::from_i8`, `T::from_u8`, ..., each returning `none` when the value is not
exactly representable.  Signed sources are `Int`, unsigned are `Nat`, float
sources are bit patterns. -/
structure FromPrim (T : Type) where
  ofI8 : Int → Option T
  ofI16 : Int → Option T
  ofI32 : Int → Option T
  ofU8 : Nat → Option T
  ofU16 : Nat → Option T
  ofU32 : Nat → Option T
  ofF32 : Nat → Option T
  ofF64 : Nat → Option T

/-- Rust indexing `x[0]` on a `Vec`: the first element, or the index panic. -/
def index0 : List α → Except AnyError α
  | [] => .error .panicIndexRange
  | v :: _ => .ok v

/-- One matched arm of `DynRecord::xyz`: index the first element of each of
the three vectors in `x`, `y`, `z` order and convert each; the first empty
vector raises the index panic, as `x[0]` / `y[0]` / `z[0]` do. -/
def xyzArm (f : α → Option T) (xs ys zs : List α) :
    Except AnyError (Option T × Option T × Option T) :=
  match xs, ys, zs with
  | x0 :: _, y0 :: _, z0 :: _ => .ok (f x0, f y0, f z0)
  | [], _, _ => .error .panicIndexRange
  | _ :: _, [], _ => .error .panicIndexRange
  | _ :: _, _ :: _, [] => .error .panicIndexRange

/-- The final `if let (Some(x), Some(y), Some(z))` of `DynRecord::xyz`: the
triple when all three conversions succeeded, `none` otherwise. -/
def combineXYZ : Option T × Option T × Option T → Option (T × T × T)
  | (some x, some y, some z) => some (x, y, z)
  | _ => none

/-- `DynRecord::xyz` (src/src/record.rs): slice the first three fields
(panicking when there are fewer than three), match them against the eight
same-kind patterns (panicking on the `_` arm), convert the first element of
each, and return the triple only when all three conversions succeed. -/
def DynRecord.xyz (cv : FromPrim T) (rec : DynRecord) :
    Except AnyError (Option (T × T × T)) :=
  match rec.fields with
  | f0 :: f1 :: f2 :: _ =>
    let arm : Except AnyError (Option T × Option T × Option T) :=
      match f0, f1, f2 with
      | .I8 xs, .I8 ys, .I8 zs => xyzArm cv.ofI8 xs ys zs
      | .I16 xs, .I16 ys, .I16 zs => xyzArm cv.ofI16 xs ys zs
      | .I32 xs, .I32 ys, .I32 zs => xyzArm cv.ofI32 xs ys zs
      | .U8 xs, .U8 ys, .U8 zs => xyzArm cv.ofU8 xs ys zs
      | .U16 xs, .U16 ys, .U16 zs => xyzArm cv.ofU16 xs ys zs
      | .U32 xs, .U32 ys, .U32 zs => xyzArm cv.ofU32 xs ys zs
      | .F32 xs, .F32 ys, .F32 zs => xyzArm cv.ofF32 xs ys zs
      | .F64 xs, .F64 ys, .F64 zs => xyzArm cv.ofF64 xs ys zs
      | _, _, _ => .error .panicIncompletePoint
    match arm with
    | .error e => .error e
    | .ok t => .ok (combineXYZ t)
  | _ => .error .panicSliceRange

-- The sequential writer (src/src/seq_writer.rs).

/-- Sensor pose metadata (`ViewPoint`): seven f64 components, carried as bit
patterns and only ever formatted into the header. -/
structure ViewPoint where
  tx : Nat
  ty : Nat
  tz : Nat
  qw : Nat
  qx : Nat
  qy : Nat
  qz : Nat

/-- `DataKind`: the two body encodings. -/
inductive DataKind where
  | binary
  | ascii
  deriving DecidableEq, Repr

/-- The static write-specification consumed by the builder
(`Vec<(String, ValueKind, usize)>` in src/src/seq_writer.rs). -/
abbrev RecordSpec := List (String × ValueKind × Nat)

/-- The writer-side record contract (`PCDRecordWrite` / `PcdSerialize`): the
dynamic flag and the static specification, which for the dynamic record is
the `unreachable!()` panic of `DynRecord::write_spec` (src/src/record.rs). -/
structure WriteContract where
  is_dynamic : Bool
  write_spec : Except AnyError RecordSpec

/-- The dynamic record's write contract: `is_dynamic` is true and
`write_spec` is `unreachable!()` (src/src/record.rs, `impl PcdSerialize for
DynRecord`). -/
def dynWriteContract : WriteContract :=
  { is_dynamic := true, write_spec := .error .panicUnreachable }

/-- The builder's stored header data (`SeqWriterBuilder`). -/
structure SeqWriterBuilder where
  width : Nat
  height : Nat
  viewpoint : ViewPoint
  data_kind : DataKind
  record_spec : RecordSpec

/-- `SeqWriterBuilder::new` (src/src/seq_writer.rs): obtain the contract's
static write-specification and store the header data.  The only way it can
fail to return a builder is the contract's own `write_spec` not returning
(the dynamic record panics there); there is no dynamic-contract check. -/
def SeqWriterBuilder.new (c : WriteContract) (width height : Nat)
    (viewpoint : ViewPoint) (data_kind : DataKind) :
    Except AnyError SeqWriterBuilder :=
  match c.write_spec with
  | .error e => .error e
  | .ok record_spec =>
    .ok { width := width, height := height, viewpoint := viewpoint,
          data_kind := data_kind, record_spec := record_spec }

/-- Byte width of a kind as emitted in the SIZE header line
(`SeqWriter::write_meta`). -/
def sizeOfKind : ValueKind → Nat
  | .u8 | .i8 => 1
  | .u16 | .i16 => 2
  | .u32 | .i32 | .f32 => 4
  | .f64 => 8

/-- TYPE header letter of a kind (`SeqWriter::write_meta`). -/
def typeOfKind : ValueKind → String
  | .u8 | .u16 | .u32 => "U"
  | .i8 | .i16 | .i32 => "I"
  | .f32 | .f64 => "F"

/-- Decimal digits of `n`, most significant first (fuel-driven so that it
computes by reduction; `fuel ≥ n` suffices). -/
def decDigitsAux (fuel n : Nat) : List Nat :=
  match fuel with
  | 0 => []
  | f + 1 => if n = 0 then [] else decDigitsAux f (n / 10) ++ [n % 10]

/-- ASCII bytes of Rust's decimal `Display` of `n`. -/
def decimalAscii (n : Nat) : List Nat :=
  if n = 0 then [48] else (decDigitsAux n n).map fun d => d + 48

/-- The reserved width of the POINTS value:
`(usize::max_value() as f64).log10().floor() as usize + 1`, modelled as the
decimal digit count of `usize::MAX` on a 64-bit platform (both are 20). -/
def pointsArgWidth : Nat := (decimalAscii (2 ^ 64 - 1)).length

/-- The header lines `SeqWriter::write_meta` emits, in order.  `f64Show` is
Rust's `f64` `Display` rendering the viewpoint components. -/
def writeMetaLines (builder : SeqWriterBuilder) (f64Show : Nat → String) :
    List String :=
  let fields_args := builder.record_spec.map fun f => f.1
  let size_args := builder.record_spec.map fun f => toString (sizeOfKind f.2.1)
  let type_args := builder.record_spec.map fun f => typeOfKind f.2.1
  let count_args := builder.record_spec.map fun f => toString f.2.2
  let viewpoint_args :=
    [builder.viewpoint.tx, builder.viewpoint.ty, builder.viewpoint.tz,
     builder.viewpoint.qw, builder.viewpoint.qx, builder.viewpoint.qy,
     builder.viewpoint.qz].map f64Show
  [ "# .PCD v.7 - Point Cloud Data file format",
    "VERSION .7",
    "FIELDS " ++ String.intercalate " " fields_args,
    "SIZE " ++ String.intercalate " " size_args,
    "TYPE " ++ String.intercalate " " type_args,
    "COUNT " ++ String.intercalate " " count_args,
    "WIDTH " ++ toString builder.width,
    "HEIGHT " ++ toString builder.height,
    "VIEWPOINT " ++ String.intercalate " " viewpoint_args,
    "POINTS " ++ String.mk (List.replicate pointsArgWidth ' '),
    match builder.data_kind with
    | .binary => "DATA binary"
    | .ascii => "DATA ascii" ]

-- The streaming state and the deferred count patch.

/-- The writer over its sink: the sink's bytes and cursor, the running record
count, and the recorded POINTS reservation (`SeqWriter` fields `writer`,
`num_records`, `points_arg_begin`, `points_arg_width`). -/
structure SeqWriterState where
  buf : List Nat
  pos : Nat
  num_records : Nat
  points_arg_begin : Nat
  points_arg_width : Nat
  deriving Repr

/-- A seekable sink write: overwrite bytes starting at `pos`, extending the
sink as needed (assumes `pos ≤ buf.length`, which every use maintains). -/
def writeAt (buf : List Nat) (pos : Nat) (data : List Nat) : List Nat :=
  buf.take pos ++ data ++ buf.drop (pos + data.length)

/-- `write!("{:<width$}", n)`: the decimal digits of `n` left-aligned and
padded with spaces to `width` bytes. -/
def fmtLeftAligned (n width : Nat) : List Nat :=
  let ds := decimalAscii n
  ds ++ List.replicate (width - ds.length) 32

/-- `SeqWriter::push` (src/src/seq_writer.rs), with the record's encoding
step abstracted as the `Except` value it produces (`DynRecord` encoders check
the schema before writing anything, so a failing encode writes no bytes).
On encode failure the `?` returns the error at once, before the count
increment; on success the encoded bytes are written at the cursor, the count
is incremented, the cursor seeks to the reservation, the new count is
rewritten left-aligned in the reserved width, and the cursor seeks back. -/
def SeqWriterState.push (st : SeqWriterState)
    (enc : Except AnyError (List Nat)) : Option AnyError × SeqWriterState :=
  match enc with
  | .error e => (some e, st)
  | .ok bytes =>
    let buf1 := writeAt st.buf st.pos bytes
    let pos1 := st.pos + bytes.length
    let n1 := st.num_records + 1
    let eof_pos := pos1
    let buf2 := writeAt buf1 st.points_arg_begin
      (fmtLeftAligned n1 st.points_arg_width)
    (none,
     { st with buf := buf2, pos := eof_pos, num_records := n1 })

/-- A sequence of `push` calls, stopping at the first failure. -/
def SeqWriterState.pushAll (st : SeqWriterState) :
    List (Except AnyError (List Nat)) → Option AnyError × SeqWriterState
  | [] => (none, st)
  | e :: es =>
    match st.push e with
    | (some err, st1) => (some err, st1)
    | (none, st1) => st1.pushAll es

-- Primitive records (src/src/record.rs, `impl PcdDeserialize for u8` &c).

/-- `<u8 as PcdDeserialize>::read_spec()`: one descriptor, no name, own kind,
count 1. -/
def u8ReadSpec : List (Option String × ValueKind × Option Nat) :=
  [(none, .u8, some 1)]

/-- `<u8 as PcdDeserialize>::read_chunk`: one byte off the stream. -/
def u8ReadChunk (bs : List Nat) : Except AnyError (Nat × List Nat) :=
  readLE 1 bs

/-- Rust `u8::from_str` (what `line.parse::<u8>()` runs): an optional `+`
sign followed by one or more ASCII digits, with an overflow check; any other
character is an invalid digit. -/
def rustParseU8 (s : String) : Except String Nat :=
  match s.data with
  | [] => .error "cannot parse integer from empty string"
  | c :: rest =>
    let digits := if c = '+' then rest else c :: rest
    if digits.isEmpty then .error "invalid digit found in string"
    else
      let step := fun (acc : Except String Nat) (d : Char) =>
        match acc with
        | .error e => .error e
        | .ok n =>
          if d.isDigit then
            let n1 := n * 10 + (d.toNat - 48)
            if n1 < 256 then .ok n1
            else .error "number too large to fit in target type"
          else .error "invalid digit found in string"
      digits.foldl step (.ok 0)

/-- `<u8 as PcdDeserialize>::read_line`: read one line (newline included,
as `BufRead::read_line` leaves it) and `parse()` the whole line. -/
def u8ReadLine (input : List Char) : Except AnyError Nat :=
  match rustParseU8 (String.mk (takeOneLine input).1) with
  | .error e => .error (.parseFailure e)
  | .ok v => .ok v

/-- Claim-side description of what `xyz` does to one of the first three
fields: convert its first element with the conversion for its kind. -/
def convHead (cv : FromPrim T) : Field → Option T
  | .I8 vs => vs.head?.bind cv.ofI8
  | .I16 vs => vs.head?.bind cv.ofI16
  | .I32 vs => vs.head?.bind cv.ofI32
  | .U8 vs => vs.head?.bind cv.ofU8
  | .U16 vs => vs.head?.bind cv.ofU16
  | .U32 vs => vs.head?.bind cv.ofU32
  | .F32 vs => vs.head?.bind cv.ofF32
  | .F64 vs => vs.head?.bind cv.ofF64

-- Claim-side vocabulary for the text-line decoder.

/-- Success test on an `Except` result. -/
def isOkE : Except ε α → Bool
  | .ok _ => true
  | .error _ => false

/-- The kind each whitespace token is parsed at, in consumption order: each
descriptor contributes `count` copies of its kind. -/
def flatKinds (schema : Schema) : List ValueKind :=
  schema.flatMap fun d => List.replicate d.count d.kind

/-- Aggregate element count of a schema (the `expect` of `read_line`). -/
def sumCounts (schema : Schema) : Nat := (schema.map fun d => d.count).sum

/-- Whether one token parses at one kind under the given parsing functions. -/
def tokenParses (ps : TokenReaders) (k : ValueKind) (t : String) : Bool :=
  match k with
  | .i8 => isOkE (ps.ofI8 t)
  | .i16 => isOkE (ps.ofI16 t)
  | .i32 => isOkE (ps.ofI32 t)
  | .u8 => isOkE (ps.ofU8 t)
  | .u16 => isOkE (ps.ofU16 t)
  | .u32 => isOkE (ps.ofU32 t)
  | .f32 => isOkE (ps.ofF32 t)
  | .f64 => isOkE (ps.ofF64 t)

/-- The parsing functions used by the C5 witness: `u8` parsing always fails,
every other kind always parses. -/
def psU8Fail : TokenReaders :=
  ⟨fun _ => .ok 0, fun _ => .ok 0, fun _ => .ok 0,
   fun _ => .error "invalid digit found in string",
   fun _ => .ok 0, fun _ => .ok 0, fun _ => .ok 0, fun _ => .ok 0⟩

-- Round-trip lemmas for the little-endian scalar codec.

theorem readLE_leBytes (w n : Nat) (rest : List Nat) (h : n < 2 ^ (8 * w)) :
    readLE w (leBytes w n ++ rest) = .ok (n, rest) := by
  induction w generalizing n with
  | zero =>
    have hn : n = 0 := by simpa using h
    simp [hn, leBytes, readLE]
  | succ w ih =>
    have hdiv : n / 256 < 2 ^ (8 * w) := by
      have h2 : (2 : Nat) ^ (8 * (w + 1)) = 2 ^ (8 * w) * 256 := by
        rw [Nat.mul_succ, pow_add]; norm_num
      rw [h2] at h
      omega
    simp only [leBytes, readLE, List.cons_append, List.append_eq, ih _ hdiv]
    have hrec : n % 256 + 256 * (n / 256) = n := by omega
    rw [hrec]

theorem intPat_lt (w : Nat) (v : Int) : intPat w v < 2 ^ (8 * w) := by
  unfold intPat
  have hpos : (0 : Int) < 2 ^ (8 * w) := by positivity
  have h1 : 0 ≤ v % ((2 : Int) ^ (8 * w)) := Int.emod_nonneg v (by omega)
  have h2 : v % ((2 : Int) ^ (8 * w)) < 2 ^ (8 * w) := Int.emod_lt_of_pos v hpos
  have hcast : (((2 : Nat) ^ (8 * w)) : Int) = (2 : Int) ^ (8 * w) := by
    push_cast; ring
  omega

theorem decodeSigned_intPat (w : Nat) (v : Int) (hw : 0 < w)
    (hlo : -(2 ^ (8 * w - 1)) ≤ v) (hhi : v < 2 ^ (8 * w - 1)) :
    decodeSigned w (intPat w v) = v := by
  have hsplit : (2 : Int) ^ (8 * w) = 2 ^ (8 * w - 1) * 2 := by
    rw [← pow_succ]
    congr 1
    omega
  have hpos : (0 : Int) < 2 ^ (8 * w) := by positivity
  have hmodv : v % ((2 : Int) ^ (8 * w)) = if 0 ≤ v then v else v + 2 ^ (8 * w) := by
    by_cases h0 : 0 ≤ v
    · rw [if_pos h0]
      exact Int.emod_eq_of_lt h0 (by omega)
    · rw [if_neg h0]
      have h1 : (v + 2 ^ (8 * w) * 1) % ((2 : Int) ^ (8 * w)) =
          v % ((2 : Int) ^ (8 * w)) := Int.add_mul_emod_self_left v (2 ^ (8 * w)) 1
      rw [mul_one] at h1
      rw [← h1, Int.emod_eq_of_lt (by omega) (by omega)]
  have hcastN : (((2 : Nat) ^ (8 * w - 1)) : Int) = (2 : Int) ^ (8 * w - 1) := by
    push_cast; ring
  unfold decodeSigned intPat
  rw [hmodv]
  by_cases h0 : 0 ≤ v
  · rw [if_pos h0]
    have hto : ((v.toNat : Int)) = v := Int.toNat_of_nonneg h0
    have hlt : v.toNat < 2 ^ (8 * w - 1) := by omega
    rw [if_pos hlt, hto]
  · rw [if_neg h0]
    have hnn : (0 : Int) ≤ v + 2 ^ (8 * w) := by omega
    have hto : (((v + 2 ^ (8 * w)).toNat : Int)) = v + 2 ^ (8 * w) :=
      Int.toNat_of_nonneg hnn
    have hge : ¬ ((v + 2 ^ (8 * w)).toNat < 2 ^ (8 * w - 1)) := by omega
    rw [if_neg hge]
    omega

theorem readScalarsU_flat (w : Nat) (vs : List Nat) (rest : List Nat)
    (h : ∀ v ∈ vs, v < 2 ^ (8 * w)) :
    readScalarsU w vs.length ((vs.flatMap fun v => leBytes w v) ++ rest) =
      .ok (vs, rest) := by
  induction vs with
  | nil => simp [readScalarsU]
  | cons v vs ih =>
    have h1 : v < 2 ^ (8 * w) := h v (List.mem_cons_self v vs)
    have h2 : ∀ x ∈ vs, x < 2 ^ (8 * w) := fun x hx => h x (List.mem_cons_of_mem _ hx)
    simp only [List.flatMap_cons, List.append_assoc, List.length_cons, readScalarsU,
      readLE_leBytes w v _ h1, ih h2]

theorem readScalarsI_flat (w : Nat) (vs : List Int) (rest : List Nat) (hw : 0 < w)
    (h : ∀ v ∈ vs, -(2 ^ (8 * w - 1)) ≤ v ∧ v < 2 ^ (8 * w - 1)) :
    readScalarsI w vs.length ((vs.flatMap fun v => leBytes w (intPat w v)) ++ rest) =
      .ok (vs, rest) := by
  have hflat : ∀ l : List Int, (l.flatMap fun v => leBytes w (intPat w v)) =
      (l.map (intPat w)).flatMap fun n => leBytes w n := by
    intro l
    induction l with
    | nil => rfl
    | cons v t ih => simp [List.flatMap_cons, ih]
  have hbound : ∀ n ∈ vs.map (intPat w), n < 2 ^ (8 * w) := by
    intro n hn
    rcases List.mem_map.mp hn with ⟨v, _, rfl⟩
    exact intPat_lt w v
  have hlen : vs.length = (vs.map (intPat w)).length := (List.length_map _ _).symm
  have hmap : ∀ l : List Int,
      (∀ v ∈ l, -(2 ^ (8 * w - 1)) ≤ v ∧ v < 2 ^ (8 * w - 1)) →
      (l.map (intPat w)).map (decodeSigned w) = l := by
    intro l hl
    induction l with
    | nil => rfl
    | cons v t ih =>
      simp only [List.map_cons, List.cons.injEq]
      exact ⟨decodeSigned_intPat w v hw (hl v (by simp)).1 (hl v (by simp)).2,
        ih fun x hx => hl x (by simp [hx])⟩
  unfold readScalarsI
  rw [hflat vs, hlen, readScalarsU_flat w _ _ hbound]
  show Except.ok ((vs.map (intPat w)).map (decodeSigned w), rest) = Except.ok (vs, rest)
  rw [hmap vs h]

theorem fieldVariantMatches_iff (f : Field) (k : ValueKind) :
    fieldVariantMatches f k = true ↔ f.kind = k := by
  cases f <;> cases k <;> simp [fieldVariantMatches, Field.kind]

theorem readFieldChunk_encode (f : Field) (d : FieldDef) (rest : List Nat)
    (hk : f.kind = d.kind) (hc : f.count = d.count) (hwf : f.Wf) :
    readFieldChunk d (f.encodeChunk ++ rest) = .ok (f, rest) := by
  cases f with
  | I8 values =>
    have hk2 : d.kind = ValueKind.i8 := by rw [← hk]; rfl
    have hc2 : d.count = values.length := by rw [← hc]; rfl
    have hb : ∀ v ∈ values, -(2 ^ (8 * 1 - 1) : Int) ≤ v ∧ v < 2 ^ (8 * 1 - 1) := by
      intro v hv
      have hv2 := hwf v hv
      norm_num at hv2 ⊢
      exact hv2
    simp only [readFieldChunk, hk2, hc2, Field.encodeChunk]
    rw [readScalarsI_flat 1 values rest (by norm_num) hb]
    rfl
  | I16 values =>
    have hk2 : d.kind = ValueKind.i16 := by rw [← hk]; rfl
    have hc2 : d.count = values.length := by rw [← hc]; rfl
    have hb : ∀ v ∈ values, -(2 ^ (8 * 2 - 1) : Int) ≤ v ∧ v < 2 ^ (8 * 2 - 1) := by
      intro v hv
      have hv2 := hwf v hv
      norm_num at hv2 ⊢
      exact hv2
    simp only [readFieldChunk, hk2, hc2, Field.encodeChunk]
    rw [readScalarsI_flat 2 values rest (by norm_num) hb]
    rfl
  | I32 values =>
    have hk2 : d.kind = ValueKind.i32 := by rw [← hk]; rfl
    have hc2 : d.count = values.length := by rw [← hc]; rfl
    have hb : ∀ v ∈ values, -(2 ^ (8 * 4 - 1) : Int) ≤ v ∧ v < 2 ^ (8 * 4 - 1) := by
      intro v hv
      have hv2 := hwf v hv
      norm_num at hv2 ⊢
      exact hv2
    simp only [readFieldChunk, hk2, hc2, Field.encodeChunk]
    rw [readScalarsI_flat 4 values rest (by norm_num) hb]
    rfl
  | U8 values =>
    have hk2 : d.kind = ValueKind.u8 := by rw [← hk]; rfl
    have hc2 : d.count = values.length := by rw [← hc]; rfl
    have hb : ∀ v ∈ values, v < 2 ^ (8 * 1) := by
      intro v hv
      have hv2 := hwf v hv
      norm_num at hv2 ⊢
      exact hv2
    simp only [readFieldChunk, hk2, hc2, Field.encodeChunk]
    rw [readScalarsU_flat 1 values rest hb]
    rfl
  | U16 values =>
    have hk2 : d.kind = ValueKind.u16 := by rw [← hk]; rfl
    have hc2 : d.count = values.length := by rw [← hc]; rfl
    have hb : ∀ v ∈ values, v < 2 ^ (8 * 2) := by
      intro v hv
      have hv2 := hwf v hv
      norm_num at hv2 ⊢
      exact hv2
    simp only [readFieldChunk, hk2, hc2, Field.encodeChunk]
    rw [readScalarsU_flat 2 values rest hb]
    rfl
  | U32 values =>
    have hk2 : d.kind = ValueKind.u32 := by rw [← hk]; rfl
    have hc2 : d.count = values.length := by rw [← hc]; rfl
    have hb : ∀ v ∈ values, v < 2 ^ (8 * 4) := by
      intro v hv
      have hv2 := hwf v hv
      norm_num at hv2 ⊢
      exact hv2
    simp only [readFieldChunk, hk2, hc2, Field.encodeChunk]
    rw [readScalarsU_flat 4 values rest hb]
    rfl
  | F32 values =>
    have hk2 : d.kind = ValueKind.f32 := by rw [← hk]; rfl
    have hc2 : d.count = values.length := by rw [← hc]; rfl
    have hb : ∀ v ∈ values, v < 2 ^ (8 * 4) := by
      intro v hv
      have hv2 := hwf v hv
      norm_num at hv2 ⊢
      exact hv2
    simp only [readFieldChunk, hk2, hc2, Field.encodeChunk]
    rw [readScalarsU_flat 4 values rest hb]
    rfl
  | F64 values =>
    have hk2 : d.kind = ValueKind.f64 := by rw [← hk]; rfl
    have hc2 : d.count = values.length := by rw [← hc]; rfl
    have hb : ∀ v ∈ values, v < 2 ^ (8 * 8) := by
      intro v hv
      have hv2 := hwf v hv
      norm_num at hv2 ⊢
      exact hv2
    simp only [readFieldChunk, hk2, hc2, Field.encodeChunk]
    rw [readScalarsU_flat 8 values rest hb]
    rfl

/-- The per-position test run by `is_schema_consistent`, characterized as the
pair of equalities the spec describes. -/
theorem consistent_elem_iff (f : Field) (d : FieldDef) :
    (if f.count ≠ d.count then false else fieldVariantMatches f d.kind) = true ↔
      f.kind = d.kind ∧ f.count = d.count := by
  by_cases hc : f.count = d.count <;> simp [hc, fieldVariantMatches_iff]

/-- `is_schema_consistent` holds exactly when the record and the schema agree
position by position on kind and count (and hence in length). -/
theorem consistent_iff_forall₂ (rec : DynRecord) (schema : Schema) :
    rec.is_schema_consistent schema = true ↔
      List.Forall₂ (fun (f : Field) (d : FieldDef) =>
        f.kind = d.kind ∧ f.count = d.count) rec.fields schema := by
  unfold DynRecord.is_schema_consistent
  rw [List.forall₂_iff_zip]
  by_cases hlen : rec.fields.length = schema.length
  · simp only [hlen, ne_eq, not_true_eq_false, if_false, ite_false, List.all_eq_true]
    constructor
    · intro h
      refine ⟨trivial, ?_⟩
      intro a b hab
      exact (consistent_elem_iff a b).mp (h (a, b) hab)
    · rintro ⟨-, h2⟩ ⟨a, b⟩ hab
      exact (consistent_elem_iff a b).mpr (h2 hab)
  · simp [hlen]

theorem readFieldsChunk_encode (fields : List Field) (schema : Schema)
    (rest : List Nat)
    (h : List.Forall₂ (fun (f : Field) (d : FieldDef) =>
      f.kind = d.kind ∧ f.count = d.count) fields schema)
    (hwf : ∀ f ∈ fields, f.Wf) :
    readFieldsChunk schema (fields.flatMap Field.encodeChunk ++ rest) =
      .ok (fields, rest) := by
  induction h with
  | nil => simp [readFieldsChunk]
  | @cons f d fs ds hfd _ ih =>
    have hwf1 : f.Wf := hwf f (List.mem_cons_self f fs)
    have hwf2 : ∀ x ∈ fs, x.Wf := fun x hx => hwf x (List.mem_cons_of_mem _ hx)
    simp only [List.flatMap_cons, List.append_assoc, readFieldsChunk,
      readFieldChunk_encode f d _ hfd.1 hfd.2 hwf1, ih hwf2]

/-- Reflexivity of the Rust float-aware equality, given no NaN payloads. -/
theorem listEqBy_refl (eq : α → α → Bool) (l : List α)
    (h : ∀ a ∈ l, eq a a = true) : listEqBy eq l l = true := by
  induction l with
  | nil => rfl
  | cons a t ih =>
    simp only [listEqBy, Bool.and_eq_true]
    exact ⟨h a (List.mem_cons_self a t), ih fun x hx => h x (List.mem_cons_of_mem _ hx)⟩

theorem fieldRustEq_refl (f : Field) (h : f.NoNaN) : fieldRustEq f f = true := by
  cases f <;> simp only [fieldRustEq] <;>
    refine listEqBy_refl _ _ fun a ha => ?_ <;>
    simp [f32Eq, f64Eq]
  · exact h a ha
  · exact h a ha

theorem recordRustEq_refl (rec : DynRecord) (h : rec.NoNaN) :
    recordRustEq rec rec = true :=
  listEqBy_refl _ _ fun f hf => fieldRustEq_refl f (h f hf)

/-- C2 (counterexample): the round trip as claimed — decode of encode yields a
record `==` (Rust `PartialEq`) to the original — fails at a record holding the
f32 NaN pattern 0x7FC00000: the bytes round-trip exactly, but the decoded
record is not `==` to the original because `NaN != NaN`. -/
theorem C2_roundtrip_counterexample :
    DynRecord.write_chunk ⟨[Field.F32 [0x7FC00000]]⟩ [⟨"x", ValueKind.f32, 1⟩] [] =
      (none, [0, 0, 192, 127]) ∧
    DynRecord.read_chunk [⟨"x", ValueKind.f32, 1⟩] [0, 0, 192, 127] =
      .ok (⟨[Field.F32 [0x7FC00000]]⟩, []) ∧
    recordRustEq ⟨[Field.F32 [0x7FC00000]]⟩ ⟨[Field.F32 [0x7FC00000]]⟩ = false := by
  refine ⟨rfl, rfl, by decide⟩

/-- C2 (amended): for every well-formed record consistent with the schema,
`write_chunk` succeeds, and `read_chunk` of the produced bytes returns a
record bitwise identical to the original consuming exactly those bytes;
whenever no float field holds a NaN pattern, the decoded record is moreover
`==` (Rust `PartialEq`) to the original. -/
theorem C2_binary_roundtrip (rec : DynRecord) (schema : Schema)
    (hwf : rec.Wf) (hc : rec.is_schema_consistent schema = true) :
    rec.write_chunk schema [] = (none, rec.fields.flatMap Field.encodeChunk) ∧
    DynRecord.read_chunk schema (rec.fields.flatMap Field.encodeChunk) =
      .ok (rec, []) ∧
    (rec.NoNaN → recordRustEq rec rec = true) := by
  refine ⟨?_, ?_, fun h => recordRustEq_refl rec h⟩
  · unfold DynRecord.write_chunk
    simp [hc]
  · unfold DynRecord.read_chunk
    have h2 := readFieldsChunk_encode rec.fields schema []
      ((consistent_iff_forall₂ rec schema).mp hc) hwf
    rw [List.append_nil] at h2
    rw [h2]

theorem C2_binary_roundtrip_witness :
    DynRecord.Wf ⟨[Field.U8 [7], Field.I16 [-2]]⟩ ∧
    DynRecord.is_schema_consistent ⟨[Field.U8 [7], Field.I16 [-2]]⟩
      [⟨"a", ValueKind.u8, 1⟩, ⟨"b", ValueKind.i16, 1⟩] = true ∧
    (DynRecord.write_chunk ⟨[Field.U8 [7], Field.I16 [-2]]⟩
        [⟨"a", ValueKind.u8, 1⟩, ⟨"b", ValueKind.i16, 1⟩] [] =
      (none, DynRecord.fields ⟨[Field.U8 [7], Field.I16 [-2]]⟩
        |>.flatMap Field.encodeChunk) ∧
    DynRecord.read_chunk [⟨"a", ValueKind.u8, 1⟩, ⟨"b", ValueKind.i16, 1⟩]
        (DynRecord.fields ⟨[Field.U8 [7], Field.I16 [-2]]⟩
          |>.flatMap Field.encodeChunk) =
      .ok (⟨[Field.U8 [7], Field.I16 [-2]]⟩, []) ∧
    (DynRecord.NoNaN ⟨[Field.U8 [7], Field.I16 [-2]]⟩ →
      recordRustEq ⟨[Field.U8 [7], Field.I16 [-2]]⟩
        ⟨[Field.U8 [7], Field.I16 [-2]]⟩ = true)) :=
  ⟨by decide, by decide, C2_binary_roundtrip _ _ (by decide) (by decide)⟩

/-- C3 (counterexample): at a record/schema kind mismatch the encode fails not
with the structured SchemaMismatch kind but with a bare message error. -/
theorem C3_mismatch_counterexample :
    DynRecord.write_chunk ⟨[Field.U8 [1]]⟩ [⟨"x", ValueKind.i8, 1⟩] [] =
      (some (AnyError.message
        "The content of record does not match the writer schema."), []) ∧
    AnyError.isSchemaMismatch (AnyError.message
      "The content of record does not match the writer schema.") = false :=
  ⟨rfl, rfl⟩

/-- C3 (amended): both encodes first verify schema consistency — equal
length, per-position kind and count equality — and on any mismatch fail with
the bare message "The content of record does not match the writer schema."
(not the structured SchemaMismatch kind) and write zero bytes to the sink. -/
theorem C3_mismatch_writes_nothing (rec : DynRecord) (schema : Schema)
    (sink : List Nat) (lsink : String) (f32Show f64Show : Nat → String)
    (h : rec.fields.length ≠ schema.length ∨
      ∃ i, ∃ h1 : i < rec.fields.length, ∃ h2 : i < schema.length,
        (rec.fields.get ⟨i, h1⟩).kind ≠ (schema.get ⟨i, h2⟩).kind ∨
        (rec.fields.get ⟨i, h1⟩).count ≠ (schema.get ⟨i, h2⟩).count) :
    rec.is_schema_consistent schema = false ∧
    rec.write_chunk schema sink =
      (some (.message "The content of record does not match the writer schema."),
        sink) ∧
    rec.write_line schema f32Show f64Show lsink =
      (some (.message "The content of record does not match the writer schema."),
        lsink) := by
  have hfalse : rec.is_schema_consistent schema = false := by
    rw [← Bool.not_eq_true, consistent_iff_forall₂, List.forall₂_iff_get]
    rintro ⟨hlen, hget⟩
    rcases h with hl | ⟨i, h1, h2, hior⟩
    · exact hl hlen
    · rcases hior with hk | hc
      · exact hk (hget i h1 h2).1
      · exact hc (hget i h1 h2).2
  refine ⟨hfalse, ?_, ?_⟩ <;>
    simp [DynRecord.write_chunk, DynRecord.write_line, hfalse]

theorem C3_mismatch_writes_nothing_witness :
    ((DynRecord.fields ⟨[Field.U8 [1]]⟩).length ≠
        ([⟨"x", ValueKind.i8, 1⟩] : Schema).length ∨
      ∃ i, ∃ h1 : i < (DynRecord.fields ⟨[Field.U8 [1]]⟩).length,
        ∃ h2 : i < ([⟨"x", ValueKind.i8, 1⟩] : Schema).length,
        ((DynRecord.fields ⟨[Field.U8 [1]]⟩).get ⟨i, h1⟩).kind ≠
          (([⟨"x", ValueKind.i8, 1⟩] : Schema).get ⟨i, h2⟩).kind ∨
        ((DynRecord.fields ⟨[Field.U8 [1]]⟩).get ⟨i, h1⟩).count ≠
          (([⟨"x", ValueKind.i8, 1⟩] : Schema).get ⟨i, h2⟩).count) ∧
    (DynRecord.is_schema_consistent ⟨[Field.U8 [1]]⟩ [⟨"x", ValueKind.i8, 1⟩]
        = false ∧
      DynRecord.write_chunk ⟨[Field.U8 [1]]⟩ [⟨"x", ValueKind.i8, 1⟩] [9] =
        (some (.message
          "The content of record does not match the writer schema."), [9]) ∧
      DynRecord.write_line ⟨[Field.U8 [1]]⟩ [⟨"x", ValueKind.i8, 1⟩]
          (fun _ => "") (fun _ => "") "hdr" =
        (some (.message
          "The content of record does not match the writer schema."), "hdr")) :=
  ⟨Or.inr ⟨0, by decide, by decide, Or.inl (by decide)⟩,
    C3_mismatch_writes_nothing _ _ _ _ _ _
      (Or.inr ⟨0, by decide, by decide, Or.inl (by decide)⟩)⟩

/-- `xyz` returns an `ok` value only on a record whose first three fields
exist, share one kind, and are all non-empty. -/
theorem xyz_ok_shape (cv : FromPrim T) (rec : DynRecord) (o : Option (T × T × T))
    (h : rec.xyz cv = .ok o) :
    ∃ f0 f1 f2 rest, rec.fields = f0 :: f1 :: f2 :: rest ∧
      f0.kind = f1.kind ∧ f1.kind = f2.kind ∧
      0 < f0.count ∧ 0 < f1.count ∧ 0 < f2.count := by
  obtain ⟨fields⟩ := rec
  rcases fields with _ | ⟨f0, _ | ⟨f1, _ | ⟨f2, rest⟩⟩⟩
  · simp [DynRecord.xyz] at h
  · simp [DynRecord.xyz] at h
  · simp [DynRecord.xyz] at h
  · refine ⟨f0, f1, f2, rest, rfl, ?_⟩
    cases f0 <;> cases f1 <;> cases f2 <;>
      first
      | (exfalso
         revert h
         simp [DynRecord.xyz, xyzArm]
         done)
      | (rename_i xs ys zs
         rcases xs with _ | ⟨x, xs⟩
         · exact absurd h (by simp [DynRecord.xyz, xyzArm])
         rcases ys with _ | ⟨y, ys⟩
         · exact absurd h (by simp [DynRecord.xyz, xyzArm])
         rcases zs with _ | ⟨z, zs⟩
         · exact absurd h (by simp [DynRecord.xyz, xyzArm])
         exact ⟨rfl, rfl, Nat.succ_pos _, Nat.succ_pos _, Nat.succ_pos _⟩)

/-- C9: when the first three fields share one kind and are non-empty, `xyz`
returns (without panicking) the conversions of their first elements combined:
the triple exactly when all three conversions are exact, `none` otherwise. -/
theorem C9_xyz_exact_or_none (cv : FromPrim T) (rec : DynRecord)
    (f0 f1 f2 : Field) (rest : List Field)
    (hfs : rec.fields = f0 :: f1 :: f2 :: rest)
    (hk01 : f0.kind = f1.kind) (hk12 : f1.kind = f2.kind)
    (h0 : 0 < f0.count) (h1 : 0 < f1.count) (h2 : 0 < f2.count) :
    rec.xyz cv =
      .ok (combineXYZ (convHead cv f0, convHead cv f1, convHead cv f2)) := by
  obtain ⟨fields⟩ := rec
  subst hfs
  cases f0 <;> cases f1 <;> cases f2 <;>
    first
    | (apply absurd hk01
       simp [Field.kind]
       done)
    | (apply absurd hk12
       simp [Field.kind]
       done)
    | (rename_i xs ys zs
       rcases xs with _ | ⟨x, xs⟩
       · exact absurd h0 (by simp [Field.count])
       rcases ys with _ | ⟨y, ys⟩
       · exact absurd h1 (by simp [Field.count])
       rcases zs with _ | ⟨z, zs⟩
       · exact absurd h2 (by simp [Field.count])
       simp [DynRecord.xyz, xyzArm, convHead])

theorem C9_xyz_exact_or_none_witness :
    (DynRecord.fields ⟨[Field.I8 [5], Field.I8 [6], Field.I8 [7]]⟩ =
        Field.I8 [5] :: Field.I8 [6] :: Field.I8 [7] :: []) ∧
    (Field.I8 [5]).kind = (Field.I8 [6]).kind ∧
    (Field.I8 [6]).kind = (Field.I8 [7]).kind ∧
    0 < (Field.I8 [5]).count ∧ 0 < (Field.I8 [6]).count ∧
    0 < (Field.I8 [7]).count ∧
    DynRecord.xyz
        (⟨fun i => some i, fun i => some i, fun i => some i,
          fun n => some (n : Int), fun n => some (n : Int),
          fun n => some (n : Int), fun n => some (n : Int),
          fun n => some (n : Int)⟩ : FromPrim Int)
        ⟨[Field.I8 [5], Field.I8 [6], Field.I8 [7]]⟩ =
      .ok (combineXYZ
        (convHead (⟨fun i => some i, fun i => some i, fun i => some i,
          fun n => some (n : Int), fun n => some (n : Int),
          fun n => some (n : Int), fun n => some (n : Int),
          fun n => some (n : Int)⟩ : FromPrim Int) (Field.I8 [5]),
         convHead (⟨fun i => some i, fun i => some i, fun i => some i,
          fun n => some (n : Int), fun n => some (n : Int),
          fun n => some (n : Int), fun n => some (n : Int),
          fun n => some (n : Int)⟩ : FromPrim Int) (Field.I8 [6]),
         convHead (⟨fun i => some i, fun i => some i, fun i => some i,
          fun n => some (n : Int), fun n => some (n : Int),
          fun n => some (n : Int), fun n => some (n : Int),
          fun n => some (n : Int)⟩ : FromPrim Int) (Field.I8 [7]))) :=
  ⟨rfl, rfl, rfl, by decide, by decide, by decide,
    C9_xyz_exact_or_none _ _ _ _ _ _ rfl rfl rfl (by decide) (by decide)
      (by decide)⟩

/-- C10: `xyz` panics — it returns one of the modelled panic outcomes, not
the `none` result — whenever the record has fewer than three fields, or the
first three do not share one kind, or one of the first three is empty. -/
theorem C10_xyz_panics (cv : FromPrim T) (rec : DynRecord)
    (h : rec.fields.length < 3 ∨
      ∃ f0 f1 f2 rest, rec.fields = f0 :: f1 :: f2 :: rest ∧
        (¬ (f0.kind = f1.kind ∧ f1.kind = f2.kind) ∨
          f0.count = 0 ∨ f1.count = 0 ∨ f2.count = 0)) :
    ∃ p, rec.xyz cv = .error p := by
  rcases hres : rec.xyz cv with p | o
  · exact ⟨p, rfl⟩
  · exfalso
    obtain ⟨f0, f1, f2, rest, hfs, hk1, hk2, h0, h1, h2⟩ :=
      xyz_ok_shape cv rec o hres
    rcases h with hlen | ⟨g0, g1, g2, grest, hgs, hbad⟩
    · rw [hfs] at hlen
      simp at hlen
      omega
    · rw [hfs] at hgs
      simp only [List.cons.injEq] at hgs
      obtain ⟨e0, e1, e2, _⟩ := hgs
      subst e0; subst e1; subst e2
      rcases hbad with hk | hc | hc | hc
      · exact hk ⟨hk1, hk2⟩
      · omega
      · omega
      · omega

theorem C10_xyz_panics_witness :
    ((DynRecord.fields (⟨[]⟩ : DynRecord)).length < 3 ∨
      ∃ f0 f1 f2 rest,
        DynRecord.fields (⟨[]⟩ : DynRecord) = f0 :: f1 :: f2 :: rest ∧
        (¬ (f0.kind = f1.kind ∧ f1.kind = f2.kind) ∨
          f0.count = 0 ∨ f1.count = 0 ∨ f2.count = 0)) ∧
    ∃ p, DynRecord.xyz
        (⟨fun i => some i, fun i => some i, fun i => some i,
          fun n => some (n : Int), fun n => some (n : Int),
          fun n => some (n : Int), fun n => some (n : Int),
          fun n => some (n : Int)⟩ : FromPrim Int) (⟨[]⟩ : DynRecord) =
      .error p :=
  ⟨Or.inl (by decide),
    C10_xyz_panics _ _ (Or.inl (by decide))⟩

theorem parseTokens_ok (p : String → Except String α) (n : Nat) (ts : List String)
    (hn : n ≤ ts.length) (hall : ∀ t ∈ ts.take n, isOkE (p t) = true) :
    ∃ vs, parseTokens p n ts = .ok (vs, ts.drop n) := by
  induction n generalizing ts with
  | zero => exact ⟨[], by simp [parseTokens]⟩
  | succ n ih =>
    cases ts with
    | nil => simp at hn
    | cons t ts =>
      have ht : isOkE (p t) = true := hall t (by simp)
      rcases hpt : p t with e | v
      · rw [hpt] at ht
        simp [isOkE] at ht
      · have hall2 : ∀ x ∈ ts.take n, isOkE (p x) = true := fun x hx =>
          hall x (by simp [hx])
        obtain ⟨vs, hvs⟩ := ih ts (by simpa using hn) hall2
        exact ⟨v :: vs, by simp [parseTokens, hpt, hvs]⟩

theorem parseTokens_err (p : String → Except String α) (n : Nat) (ts : List String)
    (hn : n ≤ ts.length) (hex : ∃ t ∈ ts.take n, isOkE (p t) = false) :
    ∃ d, parseTokens p n ts = .error (.parseFailure d) := by
  induction n generalizing ts with
  | zero => simp at hex
  | succ n ih =>
    cases ts with
    | nil => simp at hn
    | cons t ts =>
      rcases hpt : p t with e | v
      · exact ⟨e, by simp [parseTokens, hpt]⟩
      · obtain ⟨x, hx, hxf⟩ := hex
        rw [List.take_succ_cons] at hx
        rcases List.mem_cons.mp hx with rfl | hx2
        · rw [hpt] at hxf
          simp [isOkE] at hxf
        · obtain ⟨d, hd⟩ := ih ts (by simpa using hn) ⟨x, hx2, hxf⟩
          exact ⟨d, by simp [parseTokens, hpt, hd]⟩

theorem zip_append_split (A B : List α) (t : List β) :
    (A ++ B).zip t = A.zip (t.take A.length) ++ B.zip (t.drop A.length) := by
  induction A generalizing t with
  | nil => simp
  | cons a A ih =>
    cases t with
    | nil => simp
    | cons b t => simp [List.zip_cons_cons, ih]

theorem zip_replicate_mem {k : α} {ts : List β} {n : Nat} (p : α × β)
    (hp : p ∈ (List.replicate n k).zip ts) : p.1 = k ∧ p.2 ∈ ts.take n := by
  induction n generalizing ts with
  | zero => simp [List.replicate] at hp
  | succ n ih =>
    cases ts with
    | nil => simp at hp
    | cons b ts =>
      rw [List.replicate_succ, List.zip_cons_cons] at hp
      rcases List.mem_cons.mp hp with rfl | h2
      · exact ⟨rfl, by simp⟩
      · obtain ⟨h1, h2'⟩ := ih h2
        exact ⟨h1, by simp [List.take_succ_cons, h2']⟩

theorem zip_replicate_mem_of (k : α) {ts : List β} {n : Nat} {t : β}
    (ht : t ∈ ts.take n) : (k, t) ∈ (List.replicate n k).zip ts := by
  induction n generalizing ts with
  | zero => simp at ht
  | succ n ih =>
    cases ts with
    | nil => simp at ht
    | cons b ts =>
      rw [List.take_succ_cons] at ht
      rw [List.replicate_succ, List.zip_cons_cons]
      rcases List.mem_cons.mp ht with rfl | h2
      · exact List.mem_cons_self _ _
      · exact List.mem_cons_of_mem _ (ih h2)

theorem readFieldLine_ok (ps : TokenReaders) (d : FieldDef) (toks : List String)
    (hn : d.count ≤ toks.length)
    (hall : ∀ t ∈ toks.take d.count, tokenParses ps d.kind t = true) :
    ∃ f, readFieldLine ps d toks = .ok (f, toks.drop d.count) := by
  rcases hk : d.kind with _ | _ | _ | _ | _ | _ | _ | _ <;>
    rw [hk] at hall <;>
    simp only [readFieldLine, hk] <;>
    [obtain ⟨vs, hvs⟩ := parseTokens_ok ps.ofI8 d.count toks hn hall;
     obtain ⟨vs, hvs⟩ := parseTokens_ok ps.ofI16 d.count toks hn hall;
     obtain ⟨vs, hvs⟩ := parseTokens_ok ps.ofI32 d.count toks hn hall;
     obtain ⟨vs, hvs⟩ := parseTokens_ok ps.ofU8 d.count toks hn hall;
     obtain ⟨vs, hvs⟩ := parseTokens_ok ps.ofU16 d.count toks hn hall;
     obtain ⟨vs, hvs⟩ := parseTokens_ok ps.ofU32 d.count toks hn hall;
     obtain ⟨vs, hvs⟩ := parseTokens_ok ps.ofF32 d.count toks hn hall;
     obtain ⟨vs, hvs⟩ := parseTokens_ok ps.ofF64 d.count toks hn hall] <;>
    exact ⟨_, by rw [hvs]; rfl⟩

theorem readFieldLine_err (ps : TokenReaders) (d : FieldDef) (toks : List String)
    (hn : d.count ≤ toks.length)
    (hex : ∃ t ∈ toks.take d.count, tokenParses ps d.kind t = false) :
    ∃ dsc, readFieldLine ps d toks = .error (.parseFailure dsc) := by
  rcases hk : d.kind with _ | _ | _ | _ | _ | _ | _ | _ <;>
    rw [hk] at hex <;>
    simp only [readFieldLine, hk] <;>
    [obtain ⟨dsc, hdsc⟩ := parseTokens_err ps.ofI8 d.count toks hn hex;
     obtain ⟨dsc, hdsc⟩ := parseTokens_err ps.ofI16 d.count toks hn hex;
     obtain ⟨dsc, hdsc⟩ := parseTokens_err ps.ofI32 d.count toks hn hex;
     obtain ⟨dsc, hdsc⟩ := parseTokens_err ps.ofU8 d.count toks hn hex;
     obtain ⟨dsc, hdsc⟩ := parseTokens_err ps.ofU16 d.count toks hn hex;
     obtain ⟨dsc, hdsc⟩ := parseTokens_err ps.ofU32 d.count toks hn hex;
     obtain ⟨dsc, hdsc⟩ := parseTokens_err ps.ofF32 d.count toks hn hex;
     obtain ⟨dsc, hdsc⟩ := parseTokens_err ps.ofF64 d.count toks hn hex] <;>
    exact ⟨dsc, by rw [hdsc]; rfl⟩

/-- With enough tokens available a field decode either consumes exactly its
count of tokens or fails with a wrapped parse error; it never hits the
iterator `unwrap`. -/
theorem readFieldLine_dichotomy (ps : TokenReaders) (d : FieldDef)
    (toks : List String) (hn : d.count ≤ toks.length) :
    (∃ f, readFieldLine ps d toks = .ok (f, toks.drop d.count)) ∨
    ∃ dsc, readFieldLine ps d toks = .error (.parseFailure dsc) := by
  by_cases hcase : ∀ t ∈ toks.take d.count, tokenParses ps d.kind t = true
  · exact Or.inl (readFieldLine_ok ps d toks hn hcase)
  · push_neg at hcase
    obtain ⟨t, ht, htf⟩ := hcase
    exact Or.inr (readFieldLine_err ps d toks hn
      ⟨t, ht, by simpa using htf⟩)

theorem readFieldsLine_ok (ps : TokenReaders) (defs : Schema) (toks : List String)
    (hn : sumCounts defs ≤ toks.length)
    (hall : ∀ pr ∈ (flatKinds defs).zip toks, tokenParses ps pr.1 pr.2 = true) :
    ∃ fs, readFieldsLine ps defs toks = .ok (fs, toks.drop (sumCounts defs)) := by
  induction defs generalizing toks with
  | nil => exact ⟨[], by simp [readFieldsLine, sumCounts]⟩
  | cons d ds ih =>
    have hsum : sumCounts (d :: ds) = d.count + sumCounts ds := by
      simp [sumCounts]
    have hn1 : d.count ≤ toks.length := by omega
    have hall1 : ∀ t ∈ toks.take d.count, tokenParses ps d.kind t = true := by
      intro t ht
      apply hall (d.kind, t)
      have hfk : flatKinds (d :: ds) =
          List.replicate d.count d.kind ++ flatKinds ds := by
        simp [flatKinds]
      rw [hfk, zip_append_split, List.length_replicate]
      exact List.mem_append_left _
        (zip_replicate_mem_of _ (by simpa [List.take_take] using ht))
    obtain ⟨f, hf⟩ := readFieldLine_ok ps d toks hn1 hall1
    have hall2 : ∀ pr ∈ (flatKinds ds).zip (toks.drop d.count),
        tokenParses ps pr.1 pr.2 = true := by
      intro pr hpr
      apply hall pr
      have hfk : flatKinds (d :: ds) =
          List.replicate d.count d.kind ++ flatKinds ds := by
        simp [flatKinds]
      rw [hfk, zip_append_split, List.length_replicate]
      exact List.mem_append_right _ hpr
    have hn2 : sumCounts ds ≤ (toks.drop d.count).length := by
      rw [List.length_drop]
      omega
    obtain ⟨fs, hfs⟩ := ih (toks.drop d.count) hn2 hall2
    refine ⟨f :: fs, ?_⟩
    simp only [readFieldsLine, hf, hfs, List.drop_drop, hsum]

theorem readFieldsLine_err (ps : TokenReaders) (defs : Schema) (toks : List String)
    (hn : sumCounts defs ≤ toks.length)
    (hex : ∃ pr ∈ (flatKinds defs).zip toks, tokenParses ps pr.1 pr.2 = false) :
    ∃ dsc, readFieldsLine ps defs toks = .error (.parseFailure dsc) := by
  induction defs generalizing toks with
  | nil => simp [flatKinds] at hex
  | cons d ds ih =>
    have hsum : sumCounts (d :: ds) = d.count + sumCounts ds := by
      simp [sumCounts]
    have hn1 : d.count ≤ toks.length := by omega
    obtain ⟨pr, hpr, hprf⟩ := hex
    have hfk : flatKinds (d :: ds) =
        List.replicate d.count d.kind ++ flatKinds ds := by
      simp [flatKinds]
    rw [hfk, zip_append_split, List.length_replicate] at hpr
    rcases List.mem_append.mp hpr with hL | hR
    · obtain ⟨h1, h2⟩ := zip_replicate_mem pr hL
      obtain ⟨dsc, hdsc⟩ := readFieldLine_err ps d toks hn1
        ⟨pr.2, by simpa [List.take_take] using h2, by rw [← h1]; exact hprf⟩
      exact ⟨dsc, by simp [readFieldsLine, hdsc]⟩
    · rcases readFieldLine_dichotomy ps d toks hn1 with ⟨f, hok⟩ | ⟨dsc, herr⟩
      · have hn2 : sumCounts ds ≤ (toks.drop d.count).length := by
          rw [List.length_drop]
          omega
        obtain ⟨dsc, hdsc⟩ := ih (toks.drop d.count) hn2 ⟨pr, hR, hprf⟩
        exact ⟨dsc, by simp [readFieldsLine, hok, hdsc]⟩
      · exact ⟨dsc, by simp [readFieldsLine, herr]⟩

/-- `read_line` unfolded (definitional). -/
theorem read_line_eq (ps : TokenReaders) (schema : Schema) (input : List Char) :
    DynRecord.read_line ps schema input =
      if (splitAsciiWhitespace (takeOneLine input).1).length ≠ sumCounts schema
      then
        .error (.pcd (.textTokenMismatchError (sumCounts schema)
          (splitAsciiWhitespace (takeOneLine input).1).length))
      else
        match readFieldsLine ps schema
            (splitAsciiWhitespace (takeOneLine input).1) with
        | .error e => .error e
        | .ok (fields, _) => .ok ⟨fields⟩ := rfl

/-- C5: the dynamic line decode reads one line, splits it on ASCII
whitespace, and (a) if the token count differs from the schema's aggregate
count it fails with TokenCountMismatch(sum, found) — yielding no record —
and (b) if the counts agree but any token fails to parse at its
descriptor's kind, the whole decode fails with a wrapped parse error. -/
theorem C5_read_line_mismatch_and_parse (ps : TokenReaders) (schema : Schema)
    (input : List Char) :
    ((splitAsciiWhitespace (takeOneLine input).1).length ≠ sumCounts schema →
      DynRecord.read_line ps schema input =
        .error (.pcd (.textTokenMismatchError (sumCounts schema)
          (splitAsciiWhitespace (takeOneLine input).1).length))) ∧
    ((splitAsciiWhitespace (takeOneLine input).1).length = sumCounts schema →
      (∃ pr ∈ (flatKinds schema).zip
          (splitAsciiWhitespace (takeOneLine input).1),
        tokenParses ps pr.1 pr.2 = false) →
      ∃ dsc, DynRecord.read_line ps schema input =
        .error (.parseFailure dsc)) := by
  constructor
  · intro hne
    rw [read_line_eq, if_pos hne]
  · intro heq hex
    obtain ⟨dsc, hdsc⟩ := readFieldsLine_err ps schema
      (splitAsciiWhitespace (takeOneLine input).1) (le_of_eq heq.symm) hex
    refine ⟨dsc, ?_⟩
    rw [read_line_eq, if_neg (not_not_intro heq), hdsc]

theorem C5_read_line_witness :
    (DynRecord.read_line psU8Fail [⟨"x", ValueKind.u8, 1⟩]
        ['1', ' ', '2', '\n'] =
      .error (.pcd (.textTokenMismatchError 1 2))) ∧
    ∃ dsc, DynRecord.read_line psU8Fail [⟨"x", ValueKind.u8, 1⟩] ['9', '\n'] =
      .error (.parseFailure dsc) :=
  ⟨(C5_read_line_mismatch_and_parse psU8Fail _ _).1 (by decide),
   (C5_read_line_mismatch_and_parse psU8Fail _ _).2 (by decide)
     ⟨(ValueKind.u8, "9"), by decide, by decide⟩⟩

/-- C4 (counterexample): constructing the builder from the dynamic record
contract panics at its `write_spec` (`unreachable!()` in src/src/record.rs);
the outcome is not an InvalidArgument error, and `SeqWriterBuilder::new`
performs no dynamic-contract check at all. -/
theorem C4_dynamic_builder_counterexample :
    SeqWriterBuilder.new dynWriteContract 300 1 ⟨0, 0, 0, 0, 0, 0, 0⟩
        DataKind.ascii =
      .error .panicUnreachable ∧
    AnyError.isInvalidArgument AnyError.panicUnreachable = false :=
  ⟨rfl, rfl⟩

/-- C4 (amended): for every width, height, viewpoint and data kind,
constructing a sequential writer builder from the dynamic record contract
(whose `is_dynamic` is true) panics via the dynamic `write_spec`'s
`unreachable!()` rather than returning an InvalidArgument error. -/
theorem C4_dynamic_builder_panics (width height : Nat) (vp : ViewPoint)
    (dk : DataKind) :
    dynWriteContract.is_dynamic = true ∧
    SeqWriterBuilder.new dynWriteContract width height vp dk =
      .error .panicUnreachable :=
  ⟨rfl, rfl⟩

theorem pointsArgWidth_eq : pointsArgWidth = 20 := by decide

/-- C7: the header is emitted as exactly these lines in this order: the
comment banner, VERSION .7, FIELDS with the per-field names, SIZE with the
per-field byte width derived from the kind (1 for U8/I8, 2 for U16/I16, 4
for U32/I32/F32, 8 for F64), TYPE with U/I/F per field, COUNT with the
per-field element counts, WIDTH, HEIGHT, VIEWPOINT with the seven floats in
tx ty tz qw qx qy qz order, POINTS with a reserved fixed-width blank
placeholder, and DATA ascii or DATA binary. -/
theorem C7_header_lines (spec : RecordSpec) (width height : Nat)
    (vp : ViewPoint) (dk : DataKind) (f64Show : Nat → String) :
    writeMetaLines ⟨width, height, vp, dk, spec⟩ f64Show =
      ["# .PCD v.7 - Point Cloud Data file format",
       "VERSION .7",
       "FIELDS " ++ String.intercalate " " (spec.map fun f => f.1),
       "SIZE " ++ String.intercalate " " (spec.map fun f =>
         toString (match f.2.1 with
           | ValueKind.u8 | ValueKind.i8 => (1 : Nat)
           | ValueKind.u16 | ValueKind.i16 => 2
           | ValueKind.u32 | ValueKind.i32 | ValueKind.f32 => 4
           | ValueKind.f64 => 8)),
       "TYPE " ++ String.intercalate " " (spec.map fun f =>
         match f.2.1 with
         | ValueKind.u8 | ValueKind.u16 | ValueKind.u32 => "U"
         | ValueKind.i8 | ValueKind.i16 | ValueKind.i32 => "I"
         | ValueKind.f32 | ValueKind.f64 => "F"),
       "COUNT " ++ String.intercalate " " (spec.map fun f => toString f.2.2),
       "WIDTH " ++ toString width,
       "HEIGHT " ++ toString height,
       "VIEWPOINT " ++ String.intercalate " "
         ([vp.tx, vp.ty, vp.tz, vp.qw, vp.qx, vp.qy, vp.qz].map f64Show),
       "POINTS " ++ String.mk (List.replicate 20 ' '),
       match dk with
       | DataKind.binary => "DATA binary"
       | DataKind.ascii => "DATA ascii"] := by
  rw [← pointsArgWidth_eq]
  rfl

-- Algebra of in-place sink writes.

theorem writeAt_append_end (buf data : List Nat) :
    writeAt buf buf.length data = buf ++ data := by
  unfold writeAt
  rw [List.take_length, List.drop_eq_nil_of_le (by omega)]
  simp

theorem writeAt_prefix_append (buf extra data : List Nat) (pos : Nat)
    (h : pos + data.length ≤ buf.length) :
    writeAt (buf ++ extra) pos data = writeAt buf pos data ++ extra := by
  unfold writeAt
  rw [List.take_append_of_le_length (by omega),
    List.drop_append_of_le_length (by omega)]
  simp [List.append_assoc]

theorem writeAt_length (buf data : List Nat) (pos : Nat)
    (h : pos + data.length ≤ buf.length) :
    (writeAt buf pos data).length = buf.length := by
  unfold writeAt
  simp only [List.length_append, List.length_take, List.length_drop]
  omega

theorem writeAt_region (buf data : List Nat) (pos : Nat)
    (h : pos + data.length ≤ buf.length) :
    ((writeAt buf pos data).drop pos).take data.length = data := by
  unfold writeAt
  have hlen : (buf.take pos).length = pos := by
    rw [List.length_take]
    omega
  rw [List.append_assoc]
  calc ((buf.take pos ++ (data ++ buf.drop (pos + data.length))).drop pos).take
        data.length
      = ((buf.take pos ++ (data ++ buf.drop (pos + data.length))).drop
          (buf.take pos).length).take data.length := by rw [hlen]
    _ = (data ++ buf.drop (pos + data.length)).take data.length := by
        rw [List.drop_left]
    _ = data := List.take_left data _

theorem writeAt_frame (buf data : List Nat) (pos i : Nat)
    (h : pos + data.length ≤ buf.length)
    (hi : i < pos ∨ pos + data.length ≤ i) :
    (writeAt buf pos data)[i]? = buf[i]? := by
  unfold writeAt
  rcases hi with hi | hi
  · rw [List.append_assoc,
      List.getElem?_append_left (by rw [List.length_take]; omega),
      List.getElem?_take_of_lt hi]
  · rw [List.getElem?_append_right (by
      simp only [List.length_append, List.length_take]
      omega)]
    rw [List.getElem?_drop]
    congr 1
    simp only [List.length_append, List.length_take]
    omega

theorem decDigitsAux_length (fuel : Nat) : ∀ n w : Nat, n ≤ fuel → n < 10 ^ w →
    (decDigitsAux fuel n).length ≤ w := by
  induction fuel with
  | zero =>
    intro n w _ _
    simp [decDigitsAux]
  | succ f ih =>
    intro n w h1 h2
    simp only [decDigitsAux]
    by_cases hn : n = 0
    · simp [hn]
    · rw [if_neg hn]
      have hw : w ≠ 0 := by
        intro hw0
        rw [hw0] at h2
        simp at h2
        omega
      obtain ⟨w', rfl⟩ : ∃ w', w = w' + 1 := ⟨w - 1, by omega⟩
      have hlt : n / 10 < 10 ^ w' := by
        have hp : (10 : Nat) ^ (w' + 1) = 10 ^ w' * 10 := pow_succ 10 w'
        rw [hp] at h2
        omega
      have hrec := ih (n / 10) w' (by omega) hlt
      simp only [List.length_append, List.length_cons, List.length_nil]
      omega

theorem decimalAscii_length (n w : Nat) (hw : 0 < w) (h : n < 10 ^ w) :
    (decimalAscii n).length ≤ w := by
  unfold decimalAscii
  by_cases hn : n = 0
  · simp [hn]
    omega
  · rw [if_neg hn, List.length_map]
    exact decDigitsAux_length n n w le_rfl h

theorem fmtLeftAligned_length (n width : Nat)
    (h : (decimalAscii n).length ≤ width) :
    (fmtLeftAligned n width).length = width := by
  unfold fmtLeftAligned
  simp only [List.length_append, List.length_replicate]
  omega

/-- A successful push, fully evaluated: the record's bytes are appended at
the prior end, the count is bumped, and the POINTS reservation is rewritten
in place. -/
theorem push_ok (st : SeqWriterState) (bytes : List Nat)
    (hpos : st.pos = st.buf.length)
    (hhdr : st.points_arg_begin + st.points_arg_width ≤ st.buf.length)
    (hfit : st.num_records + 1 < 10 ^ st.points_arg_width) :
    st.push (.ok bytes) =
      (none,
        { buf := writeAt st.buf st.points_arg_begin
            (fmtLeftAligned (st.num_records + 1) st.points_arg_width) ++ bytes,
          pos := st.buf.length + bytes.length,
          num_records := st.num_records + 1,
          points_arg_begin := st.points_arg_begin,
          points_arg_width := st.points_arg_width }) := by
  have hwpos : 0 < st.points_arg_width := by
    by_contra h0
    push_neg at h0
    have h00 : st.points_arg_width = 0 := by omega
    rw [h00] at hfit
    simp at hfit
  have hflen : (fmtLeftAligned (st.num_records + 1) st.points_arg_width).length =
      st.points_arg_width :=
    fmtLeftAligned_length _ _ (decimalAscii_length _ _ hwpos hfit)
  simp only [SeqWriterState.push]
  rw [hpos, writeAt_append_end,
    writeAt_prefix_append _ _ _ _ (by rw [hflen]; omega)]

/-- The POINTS region of the sink after an in-place rewrite followed by an
append. -/
theorem region_after_write (buf bytes fmt : List Nat) (b w : Nat)
    (hlen : fmt.length = w) (hle : b + w ≤ buf.length) :
    ((writeAt buf b fmt ++ bytes).drop b).take w = fmt := by
  have hwlen : (writeAt buf b fmt).length = buf.length :=
    writeAt_length _ _ _ (by omega)
  rw [List.drop_append_of_le_length (by omega)]
  rw [List.take_append_of_le_length (by
    simp only [List.length_drop, hwlen]
    omega)]
  rw [← hlen] at hle ⊢
  exact writeAt_region buf fmt b (by omega)

/-- C6: every successful push appends the encoded record at the end of the
body (points appear in pushed order), rewrites only the reserved POINTS field
in place with the running count left-aligned and padded to the reserved
width, restores the cursor to the position after the append, and leaves every
other previously written byte unchanged. -/
theorem C6_push_frame (st : SeqWriterState) (bytes : List Nat)
    (hpos : st.pos = st.buf.length)
    (hhdr : st.points_arg_begin + st.points_arg_width ≤ st.buf.length)
    (hfit : st.num_records + 1 < 10 ^ st.points_arg_width) :
    (st.push (.ok bytes)).1 = none ∧
    (st.push (.ok bytes)).2.buf.length = st.buf.length + bytes.length ∧
    (st.push (.ok bytes)).2.buf.drop st.buf.length = bytes ∧
    ((st.push (.ok bytes)).2.buf.drop st.points_arg_begin).take
        st.points_arg_width =
      fmtLeftAligned (st.num_records + 1) st.points_arg_width ∧
    (∀ i, i < st.buf.length →
      (i < st.points_arg_begin ∨ st.points_arg_begin + st.points_arg_width ≤ i) →
      (st.push (.ok bytes)).2.buf[i]? = st.buf[i]?) ∧
    (st.push (.ok bytes)).2.pos = st.pos + bytes.length ∧
    (st.push (.ok bytes)).2.num_records = st.num_records + 1 := by
  have hwpos : 0 < st.points_arg_width := by
    by_contra h0
    push_neg at h0
    have h00 : st.points_arg_width = 0 := by omega
    rw [h00] at hfit
    simp at hfit
  have hflen : (fmtLeftAligned (st.num_records + 1) st.points_arg_width).length =
      st.points_arg_width :=
    fmtLeftAligned_length _ _ (decimalAscii_length _ _ hwpos hfit)
  rw [push_ok st bytes hpos hhdr hfit]
  have hwlen : (writeAt st.buf st.points_arg_begin
      (fmtLeftAligned (st.num_records + 1) st.points_arg_width)).length =
      st.buf.length :=
    writeAt_length _ _ _ (by omega)
  refine ⟨rfl, ?_, ?_, ?_, ?_, by rw [hpos], rfl⟩
  · simp [List.length_append, hwlen]
  · rw [← hwlen, List.drop_left]
  · exact region_after_write _ _ _ _ _ hflen hhdr
  · intro i hib hi
    rw [List.getElem?_append_left (by omega)]
    exact writeAt_frame _ _ _ _ (by omega) (by rw [hflen]; exact hi)

theorem C6_push_frame_witness :
    ((⟨List.replicate 30 9, 30, 0, 5, 20⟩ : SeqWriterState).pos =
      (⟨List.replicate 30 9, 30, 0, 5, 20⟩ : SeqWriterState).buf.length) ∧
    ((5 : Nat) + 20 ≤ 30) ∧ ((0 : Nat) + 1 < 10 ^ 20) ∧
    (((⟨List.replicate 30 9, 30, 0, 5, 20⟩ : SeqWriterState).push
        (.ok [1, 2, 3])).1 = none ∧
     ((⟨List.replicate 30 9, 30, 0, 5, 20⟩ : SeqWriterState).push
        (.ok [1, 2, 3])).2.buf.length =
        (⟨List.replicate 30 9, 30, 0, 5, 20⟩ : SeqWriterState).buf.length + 3 ∧
     ((⟨List.replicate 30 9, 30, 0, 5, 20⟩ : SeqWriterState).push
        (.ok [1, 2, 3])).2.buf.drop
        (⟨List.replicate 30 9, 30, 0, 5, 20⟩ : SeqWriterState).buf.length =
        [1, 2, 3] ∧
     (((⟨List.replicate 30 9, 30, 0, 5, 20⟩ : SeqWriterState).push
        (.ok [1, 2, 3])).2.buf.drop 5).take 20 = fmtLeftAligned 1 20 ∧
     (∀ i, i < (⟨List.replicate 30 9, 30, 0, 5, 20⟩ :
          SeqWriterState).buf.length →
       (i < 5 ∨ 5 + 20 ≤ i) →
       ((⟨List.replicate 30 9, 30, 0, 5, 20⟩ : SeqWriterState).push
          (.ok [1, 2, 3])).2.buf[i]? =
         (⟨List.replicate 30 9, 30, 0, 5, 20⟩ : SeqWriterState).buf[i]?) ∧
     ((⟨List.replicate 30 9, 30, 0, 5, 20⟩ : SeqWriterState).push
        (.ok [1, 2, 3])).2.pos =
        (⟨List.replicate 30 9, 30, 0, 5, 20⟩ : SeqWriterState).pos + 3 ∧
     ((⟨List.replicate 30 9, 30, 0, 5, 20⟩ : SeqWriterState).push
        (.ok [1, 2, 3])).2.num_records = 0 + 1) :=
  ⟨rfl, by norm_num, by norm_num,
    C6_push_frame ⟨List.replicate 30 9, 30, 0, 5, 20⟩ [1, 2, 3] rfl
      (by norm_num) (by norm_num)⟩

/-- Invariant-carrying induction over a run of successful pushes. -/
theorem pushAll_spec (encs : List (Except AnyError (List Nat))) :
    ∀ st : SeqWriterState,
    st.pos = st.buf.length →
    st.points_arg_begin + st.points_arg_width ≤ st.buf.length →
    st.num_records + encs.length < 10 ^ st.points_arg_width →
    (∀ e ∈ encs, ∃ bs, e = .ok bs) →
    (st.pushAll encs).1 = none ∧
    (st.pushAll encs).2.num_records = st.num_records + encs.length ∧
    (st.pushAll encs).2.points_arg_begin = st.points_arg_begin ∧
    (st.pushAll encs).2.points_arg_width = st.points_arg_width ∧
    (encs ≠ [] →
      (((st.pushAll encs).2.buf.drop st.points_arg_begin).take
          st.points_arg_width =
        fmtLeftAligned (st.num_records + encs.length) st.points_arg_width)) := by
  induction encs with
  | nil =>
    intro st h1 h2 h3 h4
    simp [SeqWriterState.pushAll]
  | cons e es ih =>
    intro st h1 h2 h3 h4
    obtain ⟨bs, rfl⟩ := h4 e (List.mem_cons_self e es)
    have hlen3 : st.num_records + (es.length + 1) < 10 ^ st.points_arg_width := by
      simpa using h3
    have hfit1 : st.num_records + 1 < 10 ^ st.points_arg_width := by omega
    have hwpos : 0 < st.points_arg_width := by
      by_contra h0
      push_neg at h0
      have h00 : st.points_arg_width = 0 := by omega
      rw [h00] at hfit1
      simp at hfit1
    have hflen : (fmtLeftAligned (st.num_records + 1)
        st.points_arg_width).length = st.points_arg_width :=
      fmtLeftAligned_length _ _ (decimalAscii_length _ _ hwpos hfit1)
    have hwlen : (writeAt st.buf st.points_arg_begin
        (fmtLeftAligned (st.num_records + 1) st.points_arg_width)).length =
        st.buf.length :=
      writeAt_length _ _ _ (by omega)
    have hp := push_ok st bs h1 h2 hfit1
    have i1 : (⟨writeAt st.buf st.points_arg_begin
          (fmtLeftAligned (st.num_records + 1) st.points_arg_width) ++ bs,
        st.buf.length + bs.length, st.num_records + 1,
        st.points_arg_begin, st.points_arg_width⟩ : SeqWriterState).pos =
        (⟨writeAt st.buf st.points_arg_begin
          (fmtLeftAligned (st.num_records + 1) st.points_arg_width) ++ bs,
        st.buf.length + bs.length, st.num_records + 1,
        st.points_arg_begin, st.points_arg_width⟩ : SeqWriterState).buf.length := by
      simp [List.length_append, hwlen]
    have i2 : st.points_arg_begin + st.points_arg_width ≤
        (writeAt st.buf st.points_arg_begin
          (fmtLeftAligned (st.num_records + 1) st.points_arg_width) ++
          bs).length := by
      simp only [List.length_append, hwlen]
      omega
    have i4 : ∀ x ∈ es, ∃ bsx, x = .ok bsx := fun x hx =>
      h4 x (List.mem_cons_of_mem _ hx)
    obtain ⟨r1, r2, r3, r4, r5⟩ := ih
      ⟨writeAt st.buf st.points_arg_begin
          (fmtLeftAligned (st.num_records + 1) st.points_arg_width) ++ bs,
        st.buf.length + bs.length, st.num_records + 1,
        st.points_arg_begin, st.points_arg_width⟩
      i1 i2 (by simpa using by omega) i4
    simp only [SeqWriterState.pushAll, hp]
    refine ⟨r1, ?_, r3, r4, ?_⟩
    · rw [r2]
      simp
      omega
    · intro _
      cases es with
      | nil =>
        simp only [SeqWriterState.pushAll, List.length_cons, List.length_nil]
        exact region_after_write _ _ _ _ _ hflen h2
      | cons e2 es2 =>
        have r5' := r5 (by simp)
        simp only [List.length_cons] at r5' ⊢
        rw [show st.num_records + 1 + (es2.length + 1) =
            st.num_records + (es2.length + 1 + 1) from by omega] at r5'
        exact r5'

/-- C1: starting from a freshly built writer (count 0, cursor at the end of
the emitted header, POINTS reservation inside it), after N successful pushes
the push loop reports no error, the running count is exactly N, and the
POINTS field holds exactly N (left-aligned, space-padded); a push whose
encode step fails returns that error verbatim and leaves the writer state —
running count and sink, hence the POINTS field — unchanged. -/
theorem C1_count_after_pushes (st0 : SeqWriterState)
    (encs : List (Except AnyError (List Nat)))
    (hpos : st0.pos = st0.buf.length)
    (hhdr : st0.points_arg_begin + st0.points_arg_width ≤ st0.buf.length)
    (hzero : st0.num_records = 0)
    (hfit : encs.length < 10 ^ st0.points_arg_width)
    (hok : ∀ e ∈ encs, ∃ bs, e = .ok bs) :
    (st0.pushAll encs).1 = none ∧
    (st0.pushAll encs).2.num_records = encs.length ∧
    (encs ≠ [] →
      (((st0.pushAll encs).2.buf.drop st0.points_arg_begin).take
          st0.points_arg_width =
        fmtLeftAligned encs.length st0.points_arg_width)) ∧
    (∀ (st : SeqWriterState) (e : AnyError), st.push (.error e) = (some e, st)) := by
  obtain ⟨r1, r2, _, _, r5⟩ := pushAll_spec encs st0 hpos hhdr (by omega) hok
  refine ⟨r1, by rw [r2, hzero]; omega, fun hne => ?_, fun st e => rfl⟩
  have hr := r5 hne
  rw [hzero] at hr
  simpa using hr

theorem C1_count_after_pushes_witness :
    ((⟨List.replicate 30 9, 30, 0, 5, 20⟩ : SeqWriterState).pos =
      (⟨List.replicate 30 9, 30, 0, 5, 20⟩ : SeqWriterState).buf.length) ∧
    ((5 : Nat) + 20 ≤ 30) ∧
    ((⟨List.replicate 30 9, 30, 0, 5, 20⟩ : SeqWriterState).num_records = 0) ∧
    (([Except.ok [1, 2], Except.ok [3]] :
        List (Except AnyError (List Nat))).length < 10 ^ 20) ∧
    (∀ e ∈ ([Except.ok [1, 2], Except.ok [3]] :
        List (Except AnyError (List Nat))), ∃ bs, e = .ok bs) ∧
    (((⟨List.replicate 30 9, 30, 0, 5, 20⟩ : SeqWriterState).pushAll
        [Except.ok [1, 2], Except.ok [3]]).1 = none ∧
     ((⟨List.replicate 30 9, 30, 0, 5, 20⟩ : SeqWriterState).pushAll
        [Except.ok [1, 2], Except.ok [3]]).2.num_records = 2 ∧
     (([Except.ok [1, 2], Except.ok [3]] :
        List (Except AnyError (List Nat))) ≠ [] →
       ((((⟨List.replicate 30 9, 30, 0, 5, 20⟩ : SeqWriterState).pushAll
          [Except.ok [1, 2], Except.ok [3]]).2.buf.drop 5).take 20 =
        fmtLeftAligned 2 20)) ∧
     (∀ (st : SeqWriterState) (e : AnyError),
       st.push (.error e) = (some e, st))) :=
  ⟨rfl, by norm_num, rfl, by norm_num,
    fun e he => by
      simp only [List.mem_cons, List.not_mem_nil, or_false] at he
      rcases he with rfl | rfl
      · exact ⟨[1, 2], rfl⟩
      · exact ⟨[3], rfl⟩,
    C1_count_after_pushes ⟨List.replicate 30 9, 30, 0, 5, 20⟩
      [Except.ok [1, 2], Except.ok [3]] rfl (by norm_num) rfl (by norm_num)
      (fun e he => by
        simp only [List.mem_cons, List.not_mem_nil, or_false] at he
        rcases he with rfl | rfl
        · exact ⟨[1, 2], rfl⟩
        · exact ⟨[3], rfl⟩)⟩

/-- C8: the primitive impls do return the claimed single-descriptor spec and
the chunk decode does read one little-endian value — but the line decode is
broken: `BufRead::read_line` leaves the terminator in the string and
`str::parse` rejects it, so a line holding the single well-formed literal
`42` fails to parse whenever it is newline-terminated, while the same
literal at end-of-input (no terminator) parses fine. -/
theorem C8_primitive_read_line_bug :
    u8ReadSpec = [(none, ValueKind.u8, some 1)] ∧
    u8ReadChunk [42, 7] = .ok (42, [7]) ∧
    rustParseU8 "42" = .ok 42 ∧
    u8ReadLine ['4', '2'] = .ok 42 ∧
    u8ReadLine ['4', '2', '\n'] =
      .error (.parseFailure "invalid digit found in string") := by
  refine ⟨rfl, rfl, rfl, rfl, rfl⟩

end Pcd
